import Mathlib

/-
Verification of the BST visualizer core (src/main.cpp, with the structural
deleter of src/unnamed/part_000).

Shallow embedding conventions:
* A C++ `Node*` tree becomes the inductive `Tree`; the pointer identity of a
  node is modelled by a `Nat` id carried in each node (insertion allocates a
  fresh id, deletion discards the freed node's id).  Layout fields
  (x, y, animX, animY, radius, color) are presentation-only and are omitted.
* In-place child-pointer rewiring becomes functional rebuilding of the spine;
  `replaceAt`/`setValAt` express a single child-slot (or root) replacement and
  a single in-place value write, addressed by a root-to-node path of
  directions, so that "exactly one structural edit" is expressible.
* The float `animProgress` (incremented by `1.0f/24` resp. `1.0f/16` per frame
  and compared against 1.0) is modelled over `ℚ` with the exact increments;
  the commit condition `animProgress >= 1.0` is kept verbatim.
* The per-frame main loop becomes the `Engine` state machine: one `step` is
  one iteration of the `while (!WindowShouldClose())` loop, taking an optional
  command (the Enter-key submission with the current mode).  Pointer captures
  (`delTargetNode`, `successorNode`, ...) are modelled as captured root-to-node
  paths; this is exact because the tree cannot change between capture and use
  (all mutating commands are gated out while a delete is in flight).
-/

namespace BSTVis

/-- A descent direction: left or right child slot. -/
inductive Dir where
  | L
  | R
deriving DecidableEq, Repr

/-- `struct Node` of src/main.cpp: an integer value and two owned children.
The `nid` field models the node's pointer identity (presentation fields are
omitted). `nil` is a null child pointer. -/
inductive Tree where
  | nil
  | node (nid : Nat) (value : Int) (left right : Tree)
deriving DecidableEq, Repr

/-- Multiset of values stored in a tree. -/
def vals : Tree → Multiset Int
  | .nil => 0
  | .node _ v l r => v ::ₘ (vals l + vals r)

/-- Multiset of node identities (pointer addresses) in a tree. -/
def ids : Tree → Multiset Nat
  | .nil => 0
  | .node nid _ l r => nid ::ₘ (ids l + ids r)

/-- Inorder traversal of the values. -/
def inorder : Tree → List Int
  | .nil => []
  | .node _ v l r => inorder l ++ v :: inorder r

/-- All values in the tree are strictly below the bound. -/
def allLT : Tree → Int → Bool
  | .nil, _ => true
  | .node _ v l r, b => decide (v < b) && allLT l b && allLT r b

/-- All values in the tree are at or above the bound. -/
def allGE : Tree → Int → Bool
  | .nil, _ => true
  | .node _ v l r, b => decide (b ≤ v) && allGE l b && allGE r b

/-- The BST ordering invariant of the spec: at every node, values of the left
subtree are strictly less than the node's value and values of the right
subtree are greater-than-or-equal (duplicates route right). -/
def isBST : Tree → Bool
  | .nil => true
  | .node _ v l r => allLT l v && allGE r v && isBST l && isBST r

/-- Insertion (`StartInsertion` + `AttachNewNodeFromPending` of src/main.cpp):
descend with `value < cur->value → left, else → right` to a null slot and
attach a fresh leaf there; an empty tree receives the new node as root.
`f` is the fresh id allocated for the new node. -/
def insert : Tree → Nat → Int → Tree
  | .nil, f, v => .node f v .nil .nil
  | .node nid w l r, f, v =>
      if v < w then .node nid w (insert l f v) r
      else .node nid w l (insert r f v)

/-- Values on the insertion traversal path (`insTraversalPath` recorded by
`StartInsertion`): every node visited on the descent, in order. -/
def insVisited : Tree → Int → List Int
  | .nil, _ => []
  | .node _ w l r, v =>
      if v < w then w :: insVisited l v else w :: insVisited r v

/-- Root-to-slot path of the insertion descent: the empty slot where
`AttachNewNodeFromPending` links the new node. -/
def insPos : Tree → Int → List Dir
  | .nil, _ => []
  | .node _ w l r, v =>
      if v < w then Dir.L :: insPos l v else Dir.R :: insPos r v

/-- Values on the delete/search traversal path (`StartDeletion` and
`StartSearch` of src/main.cpp record the same descent): push the current node,
stop on `value == cur->value`, otherwise branch `< → left, else → right`. -/
def visited : Tree → Int → List Int
  | .nil, _ => []
  | .node _ w l r, v =>
      if v = w then [w]
      else if v < w then w :: visited l v
      else w :: visited r v

/-- Whether the delete/search descent finds a matching node
(`delTargetNode`/`searchFinalNode` non-null after the Start call). -/
def descentFound : Tree → Int → Bool
  | .nil, _ => false
  | .node _ w l r, v =>
      if v = w then true
      else if v < w then descentFound l v
      else descentFound r v

/-- Root-to-target path of the delete/search descent, when the target exists:
the first node whose value equals the query, via `< → left, else → right`. -/
def locate : Tree → Int → Option (List Dir)
  | .nil, _ => none
  | .node _ w l r, v =>
      if v = w then some []
      else if v < w then (locate l v).map (Dir.L :: ·)
      else (locate r v).map (Dir.R :: ·)

/-- The successor walk of `FindInorderSuccessor` fused with the child-slot
patch of the commit: on the node `(nid, v, l, r)`, walk `left` links to the
leftmost node, and return its id, its value, and the input tree with that
leftmost node unlinked (its slot replaced by its right child). -/
def removeLeftmost (nid : Nat) (v : Int) (l r : Tree) : Nat × Int × Tree :=
  match l with
  | .nil => (nid, v, r)
  | .node a b c d =>
      ((removeLeftmost a b c d).1, (removeLeftmost a b c d).2.1,
        .node nid v (removeLeftmost a b c d).2.2 r)

/-- `FindInorderSuccessor` of src/main.cpp applied to a target node: `none`
when the node (or its right child) is absent, otherwise the leftmost-of-right
walk, together with the right subtree as left after unlinking the successor. -/
def findInorderSuccessor : Tree → Option (Nat × Int × Tree)
  | .nil => none
  | .node _ _ _ .nil => none
  | .node _ _ _ (.node a b c d) => some (removeLeftmost a b c d)

/-- The all-left path from a (non-nil) tree's root to its leftmost node. -/
def leftmostPath : Tree → List Dir
  | .nil => []
  | .node _ _ .nil _ => []
  | .node _ _ (.node a b c d) _ => Dir.L :: leftmostPath (.node a b c d)

/-- Outcome of a delete request: target absent, or committed with the freed
node's id, or the defensive "two children but no successor" fallback of
src/main.cpp line 514 (no mutation, nothing freed). -/
inductive DelResult where
  | notFound
  | deleted (t : Tree) (freed : Nat)
  | fallback (t : Tree)
deriving DecidableEq, Repr

/-- The commit action of the delete state machine on the target node
`(nid, w, l, r)` (src/main.cpp, `DEL_HIGHLIGHT_TARGET` case decision plus the
commit at the end of the chosen branch):
leaf → clear the slot (`DEL_SHRINK_REMOVE`); one child → promote the sole
child into the slot (`DEL_MOVE_CHILD_UP`); two children → copy the inorder
successor's value into the target and unlink the successor
(`DEL_MOVE_SUCCESSOR`); `none` is the defensive fallback taken when
`FindInorderSuccessor` reports no successor. Returns the replacement subtree
and the freed node's id. -/
def commitDelete (nid : Nat) (w : Int) (l r : Tree) : Option (Tree × Nat) :=
  match l, r with
  | .nil, .nil => some (.nil, nid)
  | .node l1 l2 l3 l4, .node r1 r2 r3 r4 =>
      match findInorderSuccessor (.node nid w (.node l1 l2 l3 l4) (.node r1 r2 r3 r4)) with
      | some (sid, sv, r2) => some (.node nid sv (.node l1 l2 l3 l4) r2, sid)
      | none => none
  | .nil, r => some (r, nid)
  | l, .nil => some (l, nid)

/-- Structural effect of a completed Delete (src/main.cpp delete state
machine, from `StartDeletion` through the branch commit): descend with the
delete rule to the first matching node and apply `commitDelete` there. -/
def deleteStaged : Tree → Int → DelResult
  | .nil, _ => .notFound
  | .node nid w l r, v =>
      if v = w then
        match commitDelete nid w l r with
        | some (s, fid) => .deleted s fid
        | none => .fallback (.node nid w l r)
      else if v < w then
        match deleteStaged l v with
        | .notFound => .notFound
        | .deleted l2 fid => .deleted (.node nid w l2 r) fid
        | .fallback l2 => .fallback (.node nid w l2 r)
      else
        match deleteStaged r v with
        | .notFound => .notFound
        | .deleted r2 fid => .deleted (.node nid w l r2) fid
        | .fallback r2 => .fallback (.node nid w l r2)

/-- `DeleteNodeStructural` of src/unnamed/part_000 applied to the located node
`(nid, w, l, r)`: leaf → null, one child → that child, two children → copy the
successor's value and unlink the successor (the successor walk of that
function is `removeLeftmost`). Returns the replacement subtree and the freed
node's id. -/
def delSub (nid : Nat) (w : Int) (l r : Tree) : Tree × Nat :=
  match l, r with
  | .nil, .nil => (.nil, nid)
  | .nil, .node r1 r2 r3 r4 => (.node r1 r2 r3 r4, nid)
  | .node l1 l2 l3 l4, .nil => (.node l1 l2 l3 l4, nid)
  | .node l1 l2 l3 l4, .node r1 r2 r3 r4 =>
      ((.node nid (removeLeftmost r1 r2 r3 r4).2.1 (.node l1 l2 l3 l4)
          (removeLeftmost r1 r2 r3 r4).2.2 : Tree),
        (removeLeftmost r1 r2 r3 r4).1)

/-- One-shot structural deletion: locate the target with the
`FindWithParent`/`StartDeletion` descent rule and apply `DeleteNodeStructural`
(src/unnamed/part_000) there; `none` when the value is absent. -/
def deleteStructural : Tree → Int → Option (Tree × Nat)
  | .nil, _ => none
  | .node nid w l r, v =>
      if v = w then some (delSub nid w l r)
      else if v < w then
        (deleteStructural l v).map (fun p => (.node nid w p.1 r, p.2))
      else
        (deleteStructural r v).map (fun p => (.node nid w l p.1, p.2))

/-- Subtree of `t` at a root-to-node path (`none` when the path walks off the
tree). The path `[]` is the root reference itself. -/
def subtreeAt : Tree → List Dir → Option Tree
  | t, [] => some t
  | .nil, _ :: _ => none
  | .node _ _ l _, .L :: p => subtreeAt l p
  | .node _ _ _ r, .R :: p => subtreeAt r p

/-- `ReplaceChild` generalised to a path: replace the child slot (or the root
reference, for path `[]`) addressed by the path with the given subtree. -/
def replaceAt : Tree → List Dir → Tree → Option Tree
  | _, [], s => some s
  | .nil, _ :: _, _ => none
  | .node nid v l r, .L :: p, s => (replaceAt l p s).map (fun l2 => .node nid v l2 r)
  | .node nid v l r, .R :: p, s => (replaceAt r p s).map (fun r2 => .node nid v l r2)

/-- In-place value write `node->value = x` at the node addressed by the path;
identity and child links of every node are untouched. -/
def setValAt : Tree → List Dir → Int → Option Tree
  | .nil, _, _ => none
  | .node nid _ l r, [], x => some (.node nid x l r)
  | .node nid v l r, .L :: p, x => (setValAt l p x).map (fun l2 => .node nid v l2 r)
  | .node nid v l r, .R :: p, x => (setValAt r p x).map (fun r2 => .node nid v l r2)

/-- A settled mutating operation: a completed Insert or a completed Delete. -/
inductive Op where
  | ins (v : Int)
  | del (v : Int)
deriving DecidableEq, Repr

/-- Settled effect of one operation on (tree, fresh-id counter). A not-found
delete (and the dead fallback) leaves the tree unchanged. -/
def applyOp : Tree × Nat → Op → Tree × Nat
  | (t, f), .ins v => (insert t f v, f + 1)
  | (t, f), .del v =>
      match deleteStaged t v with
      | .notFound => (t, f)
      | .deleted t2 _ => (t2, f)
      | .fallback t2 => (t2, f)

/-- Run a sequence of settled operations from the empty tree. -/
def runOps (ops : List Op) : Tree × Nat := ops.foldl applyOp (.nil, 0)

/-! ### The per-frame state machine of src/main.cpp's main loop -/

/-- `InsertStage` of src/main.cpp. `INS_ATTACHING` is set and immediately
overwritten by `INS_FINALIZE` within the same frame (lines 457-460), so it is
never observable across frames and is not a separate state here. -/
inductive InsStage where
  | insIdle
  | insTraversing
  | insFinalize
deriving DecidableEq, Repr

/-- `DelStage` of src/main.cpp. -/
inductive DelStage where
  | delIdle
  | delTraversing
  | delHighlightTarget
  | delHighlightSuccessor
  | delMoveSuccessor
  | delMoveChildUp
  | delShrinkRemove
  | delFinalize
deriving DecidableEq, Repr

/-- `SearchStage` of src/main.cpp. -/
inductive SearchStage where
  | sIdle
  | sTraversing
  | sFlashFound
  | sFlashNotFound
deriving DecidableEq, Repr

/-- The latest status signal (the `statusMessage` strings of src/main.cpp,
abstracted; the 120-frame display timer is presentation-only and omitted). -/
inductive Status where
  | noStatus
  | blocked
  | inserted (v : Int)
  | deletedMsg (v : Int)
  | delNotFound (v : Int)
  | foundMsg (v : Int)
  | searchNotFound (v : Int)
deriving DecidableEq, Repr

/-- The module-level state of src/main.cpp that the per-frame loop reads and
writes. Traversal paths of node pointers are modelled by their length (for
pacing) plus captured data: the insert path determines the attach via
`insert`, the delete target via `delTargetPath`, the successor via
`succRelPath` (a path inside the target's right subtree). -/
structure Engine where
  root : Tree
  fresh : Nat
  status : Status
  insStage : InsStage
  insFrames : Nat
  insTravLen : Nat
  insTravIdx : Nat
  insFinalizeTimer : Nat
  insPending : Int
  delStage : DelStage
  delFrames : Nat
  delTravLen : Nat
  delTravIdx : Nat
  delFound : Bool
  delTargetPath : List Dir
  succRelPath : List Dir
  animProgress : ℚ
  delPending : Int
  searchStage : SearchStage
  searchFrames : Nat
  searchLen : Nat
  searchIdx : Nat
  searchFoundFlag : Bool
  flashCount : Nat
  searchPending : Int
deriving DecidableEq, Repr

/-- The initial state: empty tree, everything idle. -/
def initEngine : Engine where
  root := .nil
  fresh := 0
  status := .noStatus
  insStage := .insIdle
  insFrames := 0
  insTravLen := 0
  insTravIdx := 0
  insFinalizeTimer := 0
  insPending := 0
  delStage := .delIdle
  delFrames := 0
  delTravLen := 0
  delTravIdx := 0
  delFound := false
  delTargetPath := []
  succRelPath := []
  animProgress := 0
  delPending := 0
  searchStage := .sIdle
  searchFrames := 0
  searchLen := 0
  searchIdx := 0
  searchFoundFlag := false
  flashCount := 0
  searchPending := 0

/-- An Enter-key command submission with the current mode and typed value. -/
inductive Cmd where
  | cmdIns (v : Int)
  | cmdDel (v : Int)
  | cmdSearch (v : Int)
deriving DecidableEq, Repr

/-- `StartInsertion` of src/main.cpp: record the descent path eagerly and
enter `INS_TRAVERSING`. -/
def startInsertion (e : Engine) (v : Int) : Engine :=
  { e with insStage := .insTraversing, insFrames := 0, insTravIdx := 0,
           insTravLen := (insVisited e.root v).length, insPending := v }

/-- `StartDeletion` of src/main.cpp: record the descent path and the target
(if found) eagerly and enter `DEL_TRAVERSING`. -/
def startDeletion (e : Engine) (v : Int) : Engine :=
  { e with delStage := .delTraversing, delFrames := 0, delTravIdx := 0,
           delTravLen := (visited e.root v).length,
           delFound := (locate e.root v).isSome,
           delTargetPath := (locate e.root v).getD [],
           succRelPath := [], animProgress := 0, delPending := v }

/-- `StartSearch` of src/main.cpp: record the descent path and the found flag
eagerly and enter `S_TRAVERSING`. -/
def startSearch (e : Engine) (v : Int) : Engine :=
  { e with searchStage := .sTraversing, searchFrames := 0, searchIdx := 0,
           flashCount := 0, searchLen := (visited e.root v).length,
           searchFoundFlag := descentFound e.root v, searchPending := v }

/-- The Enter-key command gating of src/main.cpp lines 400-435: an insert
starts iff delete and insert are idle (the search stage is NOT consulted); a
delete or search starts iff all three processes are idle; otherwise the
request is rejected with a blocked message and nothing else changes. -/
def applyCmd (e : Engine) : Cmd → Engine
  | .cmdIns v =>
      if e.delStage = .delIdle ∧ e.insStage = .insIdle then startInsertion e v
      else { e with status := .blocked }
  | .cmdDel v =>
      if e.delStage = .delIdle ∧ e.searchStage = .sIdle ∧ e.insStage = .insIdle then
        startDeletion e v
      else { e with status := .blocked }
  | .cmdSearch v =>
      if e.delStage = .delIdle ∧ e.insStage = .insIdle ∧ e.searchStage = .sIdle then
        startSearch e v
      else { e with status := .blocked }

/-- The insert state machine block of src/main.cpp lines 448-473. The attach
at the end of the traversal is `AttachNewNodeFromPending`: it creates exactly
one node and links it at the slot recorded by `StartInsertion`, which (the
tree being unchanged since then) is the functional `insert`. -/
def insertUpdate (e : Engine) : Engine :=
  match e.insStage with
  | .insTraversing =>
      if e.insFrames + 1 ≥ 12 then
        if e.insTravIdx < e.insTravLen then
          { e with insFrames := 0, insTravIdx := e.insTravIdx + 1 }
        else
          { e with insFrames := 0, insStage := .insFinalize,
                   root := insert e.root e.fresh e.insPending,
                   fresh := e.fresh + 1, insFinalizeTimer := 120,
                   status := .inserted e.insPending }
      else { e with insFrames := e.insFrames + 1 }
  | .insFinalize =>
      if e.insFinalizeTimer > 0 then
        if e.insFinalizeTimer = 1 then
          { e with insFinalizeTimer := 0, insStage := .insIdle }
        else { e with insFinalizeTimer := e.insFinalizeTimer - 1 }
      else e
  | .insIdle => e

/-- The case decision at the end of `DEL_HIGHLIGHT_TARGET` (src/main.cpp lines
503-525): leaf → `DEL_SHRINK_REMOVE`; two children → compute the successor via
`FindInorderSuccessor` (a right child is present, so it always exists) and go
to `DEL_HIGHLIGHT_SUCCESSOR`; one child → `DEL_MOVE_CHILD_UP`. The catch-all
arm models the defensive `DEL_FINALIZE` fallback (no mutation); it is
unreachable while a found delete is in flight. -/
def deleteDecide (e : Engine) : Engine :=
  match subtreeAt e.root e.delTargetPath with
  | some (.node _ _ .nil .nil) =>
      { e with delStage := .delShrinkRemove, animProgress := 0 }
  | some (.node _ _ (.node _ _ _ _) (.node a b c d)) =>
      { e with delStage := .delHighlightSuccessor, delFrames := 0,
               succRelPath := leftmostPath (.node a b c d) }
  | some (.node _ _ _ _) =>
      { e with delStage := .delMoveChildUp, animProgress := 0 }
  | _ => { e with delStage := .delFinalize }

/-- The `DEL_MOVE_SUCCESSOR` commit (src/main.cpp lines 545-561): copy the
successor's value into the target, replace the child slot holding the
successor with the successor's right child, free the successor. The captured
pointers `delTargetNode`, `successorNode`, `successorParent` are the nodes at
`delTargetPath` and `delTargetPath ++ R :: succRelPath`; the `getD` defaults
are never exercised while a two-child delete is in flight. -/
def commitMoveSuccessor (e : Engine) : Engine :=
  match subtreeAt e.root e.delTargetPath with
  | some (.node _ _ _ tr) =>
      match subtreeAt tr e.succRelPath with
      | some (.node _ sv _ sr) =>
          let t1 := (setValAt e.root e.delTargetPath sv).getD e.root
          { e with root := (replaceAt t1 (e.delTargetPath ++ Dir.R :: e.succRelPath) sr).getD t1,
                   delStage := .delFinalize, delFrames := 0, succRelPath := [],
                   status := .deletedMsg e.delPending }
      | _ => { e with delStage := .delFinalize, delFrames := 0 }
  | _ => { e with delStage := .delFinalize, delFrames := 0 }

/-- The `DEL_MOVE_CHILD_UP` commit (src/main.cpp lines 568-593): replace the
target's slot (or the root reference) with the target's sole child — the left
child when present, otherwise the right — and free the target. -/
def commitMoveChildUp (e : Engine) : Engine :=
  match subtreeAt e.root e.delTargetPath with
  | some (.node _ _ tl tr) =>
      let c := match tl with | .nil => tr | .node a b c d => .node a b c d
      { e with root := (replaceAt e.root e.delTargetPath c).getD e.root,
               delStage := .delFinalize, status := .deletedMsg e.delPending }
  | _ => { e with delStage := .delFinalize }

/-- The `DEL_SHRINK_REMOVE` commit (src/main.cpp lines 601-618): clear the
target's slot (or the root reference) and free the target. -/
def commitShrink (e : Engine) : Engine :=
  { e with root := (replaceAt e.root e.delTargetPath .nil).getD e.root,
           delStage := .delFinalize, status := .deletedMsg e.delPending }

/-- The delete state machine block of src/main.cpp lines 476-629, one frame.
`animProgress` advances by exactly `1/24` in the move branches (clamped at 1)
and by `1/16` in the shrink branch (not clamped, exactly as in the source),
and the branch commits on the frame where it reaches 1.0. -/
def deleteUpdate (e : Engine) : Engine :=
  match e.delStage with
  | .delTraversing =>
      if e.delFrames + 1 ≥ 12 then
        if e.delTravIdx < e.delTravLen then
          { e with delFrames := 0, delTravIdx := e.delTravIdx + 1 }
        else if e.delFound then
          { e with delFrames := 0, delStage := .delHighlightTarget }
        else
          { e with delFrames := 0, delStage := .delIdle, delTravIdx := 0,
                   delTravLen := 0, status := .delNotFound e.delPending }
      else { e with delFrames := e.delFrames + 1 }
  | .delHighlightTarget =>
      if e.delFrames + 1 ≥ 30 then deleteDecide { e with delFrames := e.delFrames + 1 }
      else { e with delFrames := e.delFrames + 1 }
  | .delHighlightSuccessor =>
      if e.delFrames + 1 ≥ 30 then
        { e with delFrames := e.delFrames + 1, delStage := .delMoveSuccessor,
                 animProgress := 0 }
      else { e with delFrames := e.delFrames + 1 }
  | .delMoveSuccessor =>
      if min (e.animProgress + 1/24) 1 ≥ 1 then
        commitMoveSuccessor { e with animProgress := min (e.animProgress + 1/24) 1 }
      else { e with animProgress := min (e.animProgress + 1/24) 1 }
  | .delMoveChildUp =>
      if min (e.animProgress + 1/24) 1 ≥ 1 then
        commitMoveChildUp { e with animProgress := min (e.animProgress + 1/24) 1 }
      else { e with animProgress := min (e.animProgress + 1/24) 1 }
  | .delShrinkRemove =>
      if e.animProgress + 1/16 ≥ 1 then
        commitShrink { e with animProgress := e.animProgress + 1/16 }
      else { e with animProgress := e.animProgress + 1/16 }
  | .delFinalize =>
      if e.delFrames + 1 > 20 then
        { e with delStage := .delIdle, delTravLen := 0, delTravIdx := 0, delFrames := 0 }
      else { e with delFrames := e.delFrames + 1 }
  | .delIdle => e

/-- The search state machine block of src/main.cpp lines 632-695, one frame:
the traversal waits while a delete or insert is active; the terminal flashing
runs 6 half-cycles of 12 frames. (The late `searchFinalNode = path.back()`
write in the not-found arm is presentation-only and omitted.) -/
def searchUpdate (e : Engine) : Engine :=
  match e.searchStage with
  | .sTraversing =>
      if e.delStage ≠ .delIdle ∨ e.insStage ≠ .insIdle then e
      else if e.searchFrames + 1 ≥ 12 then
        if e.searchIdx < e.searchLen then
          { e with searchFrames := 0, searchIdx := e.searchIdx + 1 }
        else if e.searchLen = 0 then
          { e with searchFrames := 0, searchStage := .sFlashNotFound,
                   status := .searchNotFound e.searchPending }
        else if e.searchFoundFlag then
          { e with searchFrames := 0, searchStage := .sFlashFound,
                   status := .foundMsg e.searchPending }
        else
          { e with searchFrames := 0, searchStage := .sFlashNotFound,
                   status := .searchNotFound e.searchPending }
      else { e with searchFrames := e.searchFrames + 1 }
  | .sFlashFound =>
      if e.searchFrames + 1 ≥ 12 then
        if e.flashCount + 1 ≥ 6 then
          { e with searchFrames := 0, flashCount := 0, searchStage := .sIdle,
                   searchLen := 0, searchIdx := 0, searchFoundFlag := false }
        else { e with searchFrames := 0, flashCount := e.flashCount + 1 }
      else { e with searchFrames := e.searchFrames + 1 }
  | .sFlashNotFound =>
      if e.searchFrames + 1 ≥ 12 then
        if e.flashCount + 1 ≥ 6 then
          { e with searchFrames := 0, flashCount := 0, searchStage := .sIdle,
                   searchLen := 0, searchIdx := 0, searchFoundFlag := false }
        else { e with searchFrames := 0, flashCount := e.flashCount + 1 }
      else { e with searchFrames := e.searchFrames + 1 }
  | .sIdle => e

/-- The unconditional finalize-timer block of src/main.cpp lines 698-705 (it
runs in addition to the `INS_FINALIZE` arm of the insert machine, so the
timer is decremented twice per frame while that stage is active, exactly as
in the source). -/
def finalizeTimerUpdate (e : Engine) : Engine :=
  if e.insFinalizeTimer > 0 then
    if e.insFinalizeTimer = 1 then { e with insFinalizeTimer := 0, insStage := .insIdle }
    else { e with insFinalizeTimer := e.insFinalizeTimer - 1 }
  else e

/-- One iteration of the main loop: handle an optional Enter-key command, then
run the insert, delete and search machines and the finalize-timer block, in
the source's order. -/
def step (e : Engine) (c : Option Cmd) : Engine :=
  finalizeTimerUpdate (searchUpdate (deleteUpdate (insertUpdate
    (match c with
     | none => e
     | some cmd => applyCmd e cmd))))

/-- Run `n` frames with no command submitted. -/
def iterate : Nat → Engine → Engine
  | 0, e => e
  | n + 1, e => iterate n (step e none)

/-- States reachable from the initial state under arbitrary command inputs. -/
inductive Reachable : Engine → Prop where
  | init : Reachable initEngine
  | next (e : Engine) (c : Option Cmd) : Reachable e → Reachable (step e c)

/-- Validity of the delete context captured in an engine state, as a function
of the fields it mentions: the captured target path is where the delete
descent locates the pending value in the current tree, and in each branch
stage the target's shape matches the branch — with the successor path
captured for the two-child branch.  This is the path-level image of the C++
pointer captures (`delTargetNode`, `successorParent`, `successorNode`)
remaining valid while a delete is in flight. -/
def delCtxWF (root : Tree) (pending : Int) (stage : DelStage) (found : Bool)
    (path rel : List Dir) : Prop :=
  match stage with
  | .delIdle => True
  | .delFinalize => True
  | .delTraversing =>
      found = (locate root pending).isSome ∧ path = (locate root pending).getD []
  | .delHighlightTarget => locate root pending = some path
  | .delShrinkRemove =>
      locate root pending = some path ∧
      ∃ nid, subtreeAt root path = some (.node nid pending .nil .nil)
  | .delMoveChildUp =>
      locate root pending = some path ∧
      ∃ nid l r, subtreeAt root path = some (.node nid pending l r) ∧
        ((l = .nil ∧ r ≠ .nil) ∨ (l ≠ .nil ∧ r = .nil))
  | .delHighlightSuccessor =>
      locate root pending = some path ∧
      ∃ nid l r, subtreeAt root path = some (.node nid pending l r) ∧
        l ≠ .nil ∧ r ≠ .nil ∧ rel = leftmostPath r
  | .delMoveSuccessor =>
      locate root pending = some path ∧
      ∃ nid l r, subtreeAt root path = some (.node nid pending l r) ∧
        l ≠ .nil ∧ r ≠ .nil ∧ rel = leftmostPath r

/-- The delete context of an engine state is valid for its current tree. -/
def delContextWF (e : Engine) : Prop :=
  delCtxWF e.root e.delPending e.delStage e.delFound e.delTargetPath e.succRelPath

/-! ### Basic lemmas: values, identities, bounds -/

theorem mem_vals_node {x : Int} {nid : Nat} {v : Int} {l r : Tree} :
    x ∈ vals (.node nid v l r) ↔ x = v ∨ x ∈ vals l ∨ x ∈ vals r := by
  simp [vals]

theorem isBST_node {nid : Nat} {v : Int} {l r : Tree} :
    isBST (.node nid v l r) = true ↔
      allLT l v = true ∧ allGE r v = true ∧ isBST l = true ∧ isBST r = true := by
  rw [show isBST (.node nid v l r) = (allLT l v && allGE r v && isBST l && isBST r)
    from rfl]
  simp [Bool.and_eq_true, and_assoc]

theorem allLT_iff (t : Tree) (b : Int) : allLT t b = true ↔ ∀ x ∈ vals t, x < b := by
  induction t with
  | nil => simp [allLT, vals]
  | node nid v l r ihl ihr =>
      rw [show allLT (.node nid v l r) b = (decide (v < b) && allLT l b && allLT r b)
        from rfl]
      simp only [Bool.and_eq_true, decide_eq_true_eq]
      constructor
      · rintro ⟨⟨hv, hl⟩, hr⟩ x hx
        rcases mem_vals_node.mp hx with rfl | hx | hx
        · exact hv
        · exact (ihl.mp hl) x hx
        · exact (ihr.mp hr) x hx
      · intro h
        exact ⟨⟨h v (mem_vals_node.mpr (Or.inl rfl)),
          ihl.mpr fun x hx => h x (mem_vals_node.mpr (Or.inr (Or.inl hx)))⟩,
          ihr.mpr fun x hx => h x (mem_vals_node.mpr (Or.inr (Or.inr hx)))⟩

theorem allGE_iff (t : Tree) (b : Int) : allGE t b = true ↔ ∀ x ∈ vals t, b ≤ x := by
  induction t with
  | nil => simp [allGE, vals]
  | node nid v l r ihl ihr =>
      rw [show allGE (.node nid v l r) b = (decide (b ≤ v) && allGE l b && allGE r b)
        from rfl]
      simp only [Bool.and_eq_true, decide_eq_true_eq]
      constructor
      · rintro ⟨⟨hv, hl⟩, hr⟩ x hx
        rcases mem_vals_node.mp hx with rfl | hx | hx
        · exact hv
        · exact (ihl.mp hl) x hx
        · exact (ihr.mp hr) x hx
      · intro h
        exact ⟨⟨h v (mem_vals_node.mpr (Or.inl rfl)),
          ihl.mpr fun x hx => h x (mem_vals_node.mpr (Or.inr (Or.inl hx)))⟩,
          ihr.mpr fun x hx => h x (mem_vals_node.mpr (Or.inr (Or.inr hx)))⟩

theorem vals_insert (t : Tree) (f : Nat) (v : Int) :
    vals (insert t f v) = v ::ₘ vals t := by
  induction t with
  | nil => simp [insert, vals]
  | node nid w l r ihl ihr =>
      by_cases h : v < w
      · simp only [insert, if_pos h, vals, ihl]
        rw [Multiset.cons_add, Multiset.cons_swap]
      · simp only [insert, if_neg h, vals, ihr]
        rw [Multiset.add_cons, Multiset.cons_swap]

theorem ids_insert (t : Tree) (f : Nat) (v : Int) :
    ids (insert t f v) = f ::ₘ ids t := by
  induction t with
  | nil => simp [insert, ids]
  | node nid w l r ihl ihr =>
      by_cases h : v < w
      · simp only [insert, if_pos h, ids, ihl]
        rw [Multiset.cons_add, Multiset.cons_swap]
      · simp only [insert, if_neg h, ids, ihr]
        rw [Multiset.add_cons, Multiset.cons_swap]

theorem isBST_insert (t : Tree) (f : Nat) (v : Int) (h : isBST t = true) :
    isBST (insert t f v) = true := by
  induction t with
  | nil => simp [insert, isBST, allLT, allGE]
  | node nid w l r ihl ihr =>
      obtain ⟨hlt, hge, hbl, hbr⟩ := isBST_node.mp h
      by_cases hv : v < w
      · rw [show insert (.node nid w l r) f v = .node nid w (insert l f v) r from by
          simp [insert, hv]]
        refine isBST_node.mpr ⟨?_, hge, ihl hbl, hbr⟩
        rw [allLT_iff]
        intro x hx
        rw [vals_insert] at hx
        rcases Multiset.mem_cons.mp hx with hx | hx
        · exact hx ▸ hv
        · exact (allLT_iff l w).mp hlt x hx
      · rw [show insert (.node nid w l r) f v = .node nid w l (insert r f v) from by
          simp [insert, hv]]
        refine isBST_node.mpr ⟨hlt, ?_, hbl, ihr hbr⟩
        rw [allGE_iff]
        intro x hx
        rw [vals_insert] at hx
        rcases Multiset.mem_cons.mp hx with hx | hx
        · exact hx ▸ (not_lt.mp hv)
        · exact (allGE_iff r w).mp hge x hx

/-! ### Lemmas about the successor walk -/

theorem removeLeftmost_vals (nid : Nat) (v : Int) (l r : Tree) :
    vals (.node nid v l r) =
      (removeLeftmost nid v l r).2.1 ::ₘ vals (removeLeftmost nid v l r).2.2 := by
  induction l generalizing nid v r with
  | nil => simp [removeLeftmost, vals]
  | node a b c d ihc ihd =>
      have ih := ihc a b d
      rw [show vals (.node nid v (.node a b c d) r) =
        v ::ₘ (vals (.node a b c d) + vals r) from rfl, ih]
      rw [show (removeLeftmost nid v (.node a b c d) r).2.1 =
        (removeLeftmost a b c d).2.1 from rfl]
      rw [show (removeLeftmost nid v (.node a b c d) r).2.2 =
        .node nid v (removeLeftmost a b c d).2.2 r from rfl]
      rw [show vals (.node nid v (removeLeftmost a b c d).2.2 r) =
        v ::ₘ (vals (removeLeftmost a b c d).2.2 + vals r) from rfl]
      rw [Multiset.cons_add, Multiset.cons_swap]

theorem removeLeftmost_ids (nid : Nat) (v : Int) (l r : Tree) :
    ids (.node nid v l r) =
      (removeLeftmost nid v l r).1 ::ₘ ids (removeLeftmost nid v l r).2.2 := by
  induction l generalizing nid v r with
  | nil => simp [removeLeftmost, ids]
  | node a b c d ihc ihd =>
      have ih := ihc a b d
      rw [show ids (.node nid v (.node a b c d) r) =
        nid ::ₘ (ids (.node a b c d) + ids r) from rfl, ih]
      rw [show (removeLeftmost nid v (.node a b c d) r).1 =
        (removeLeftmost a b c d).1 from rfl]
      rw [show (removeLeftmost nid v (.node a b c d) r).2.2 =
        .node nid v (removeLeftmost a b c d).2.2 r from rfl]
      rw [show ids (.node nid v (removeLeftmost a b c d).2.2 r) =
        nid ::ₘ (ids (removeLeftmost a b c d).2.2 + ids r) from rfl]
      rw [Multiset.cons_add, Multiset.cons_swap]

theorem removeLeftmost_mem (nid : Nat) (v : Int) (l r : Tree) :
    (removeLeftmost nid v l r).2.1 ∈ vals (.node nid v l r) := by
  rw [removeLeftmost_vals nid v l r]
  exact Multiset.mem_cons_self _ _

theorem removeLeftmost_isBST (nid : Nat) (v : Int) (l r : Tree)
    (h : isBST (.node nid v l r) = true) :
    isBST (removeLeftmost nid v l r).2.2 = true ∧
      ∀ x ∈ vals (removeLeftmost nid v l r).2.2, (removeLeftmost nid v l r).2.1 ≤ x := by
  induction l generalizing nid v r with
  | nil =>
      obtain ⟨_, hge, _, hbr⟩ := isBST_node.mp h
      exact ⟨hbr, (allGE_iff r v).mp hge⟩
  | node a b c d ihc ihd =>
      obtain ⟨hlt, hge, hbl, hbr⟩ := isBST_node.mp h
      obtain ⟨ih1, ih2⟩ := ihc a b d hbl
      have hvalsl : vals (.node a b c d) =
          (removeLeftmost a b c d).2.1 ::ₘ vals (removeLeftmost a b c d).2.2 :=
        removeLeftmost_vals a b c d
      have hmem : (removeLeftmost a b c d).2.1 ∈ vals (.node a b c d) :=
        removeLeftmost_mem a b c d
      have hsubv : ∀ x ∈ vals (removeLeftmost a b c d).2.2, x ∈ vals (.node a b c d) := by
        intro x hx
        rw [hvalsl]
        exact Multiset.mem_cons_of_mem hx
      have hsv : (removeLeftmost a b c d).2.1 < v := (allLT_iff _ v).mp hlt _ hmem
      have h22 : (removeLeftmost nid v (.node a b c d) r).2.2 =
          .node nid v (removeLeftmost a b c d).2.2 r := rfl
      have h21 : (removeLeftmost nid v (.node a b c d) r).2.1 =
          (removeLeftmost a b c d).2.1 := rfl
      rw [h22, h21]
      constructor
      · refine isBST_node.mpr ⟨?_, hge, ih1, hbr⟩
        rw [allLT_iff]
        intro x hx
        exact (allLT_iff _ v).mp hlt x (hsubv x hx)
      · intro x hx
        rcases mem_vals_node.mp hx with rfl | hx | hx
        · exact le_of_lt hsv
        · exact ih2 x hx
        · exact le_of_lt (lt_of_lt_of_le hsv ((allGE_iff r v).mp hge x hx))

/-! ### Lemmas about the delete commit -/

theorem commitDelete_isSome (nid : Nat) (w : Int) (l r : Tree) :
    (commitDelete nid w l r).isSome = true := by
  cases l <;> cases r <;> rfl

theorem commitDelete_delSub (nid : Nat) (w : Int) (l r : Tree) :
    commitDelete nid w l r = some (delSub nid w l r) := by
  cases l <;> cases r <;> rfl

theorem commitDelete_spec (nid : Nat) (w : Int) (l r : Tree) (s : Tree) (fid : Nat)
    (h : commitDelete nid w l r = some (s, fid)) :
    vals (.node nid w l r) = w ::ₘ vals s ∧
      ids (.node nid w l r) = fid ::ₘ ids s ∧
      (isBST (.node nid w l r) = true → isBST s = true) := by
  cases l with
  | nil =>
      cases r with
      | nil =>
          simp only [commitDelete, Option.some.injEq, Prod.mk.injEq] at h
          obtain ⟨rfl, rfl⟩ := h
          simp [vals, ids, isBST]
      | node r1 r2 r3 r4 =>
          simp only [commitDelete, Option.some.injEq, Prod.mk.injEq] at h
          obtain ⟨rfl, rfl⟩ := h
          refine ⟨by simp [vals], by simp [ids], fun hb => ?_⟩
          obtain ⟨_, _, _, hbr⟩ := isBST_node.mp hb
          exact hbr
  | node l1 l2 l3 l4 =>
      cases r with
      | nil =>
          simp only [commitDelete, Option.some.injEq, Prod.mk.injEq] at h
          obtain ⟨rfl, rfl⟩ := h
          refine ⟨by simp [vals], by simp [ids], fun hb => ?_⟩
          obtain ⟨_, _, hbl, _⟩ := isBST_node.mp hb
          exact hbl
      | node r1 r2 r3 r4 =>
          simp only [commitDelete, findInorderSuccessor, Option.some.injEq,
            Prod.mk.injEq] at h
          obtain ⟨rfl, rfl⟩ := h
          have hv := removeLeftmost_vals r1 r2 r3 r4
          have hi := removeLeftmost_ids r1 r2 r3 r4
          refine ⟨?_, ?_, fun hb => ?_⟩
          · rw [show vals (.node nid w (.node l1 l2 l3 l4) (.node r1 r2 r3 r4)) =
              w ::ₘ (vals (.node l1 l2 l3 l4) + vals (.node r1 r2 r3 r4)) from rfl, hv]
            rw [show vals (.node nid (removeLeftmost r1 r2 r3 r4).2.1
                (.node l1 l2 l3 l4) (removeLeftmost r1 r2 r3 r4).2.2) =
              (removeLeftmost r1 r2 r3 r4).2.1 ::ₘ
                (vals (.node l1 l2 l3 l4) + vals (removeLeftmost r1 r2 r3 r4).2.2)
              from rfl]
            rw [Multiset.add_cons]
          · rw [show ids (.node nid w (.node l1 l2 l3 l4) (.node r1 r2 r3 r4)) =
              nid ::ₘ (ids (.node l1 l2 l3 l4) + ids (.node r1 r2 r3 r4)) from rfl, hi]
            rw [show ids (.node nid (removeLeftmost r1 r2 r3 r4).2.1
                (.node l1 l2 l3 l4) (removeLeftmost r1 r2 r3 r4).2.2) =
              nid ::ₘ (ids (.node l1 l2 l3 l4) + ids (removeLeftmost r1 r2 r3 r4).2.2)
              from rfl]
            rw [Multiset.add_cons, Multiset.cons_swap]
          · obtain ⟨hlt, hge, hbl, hbr⟩ := isBST_node.mp hb
            obtain ⟨hb2, hmin⟩ := removeLeftmost_isBST r1 r2 r3 r4 hbr
            have hwsv : w ≤ (removeLeftmost r1 r2 r3 r4).2.1 :=
              (allGE_iff _ w).mp hge _ (removeLeftmost_mem r1 r2 r3 r4)
            refine isBST_node.mpr ⟨?_, ?_, hbl, hb2⟩
            · rw [allLT_iff]
              intro x hx
              exact lt_of_lt_of_le ((allLT_iff _ w).mp hlt x hx) hwsv
            · rw [allGE_iff]
              exact hmin

theorem deleteStaged_deleted (t : Tree) (v : Int) (s : Tree) (fid : Nat)
    (h : deleteStaged t v = .deleted s fid) :
    vals t = v ::ₘ vals s ∧ ids t = fid ::ₘ ids s ∧
      (isBST t = true → isBST s = true) := by
  induction t generalizing s fid with
  | nil => simp [deleteStaged] at h
  | node nid w l r ihl ihr =>
      by_cases hv : v = w
      · subst hv
        rw [show deleteStaged (.node nid v l r) v =
          (match commitDelete nid v l r with
           | some (s, fid) => DelResult.deleted s fid
           | none => DelResult.fallback (.node nid v l r)) from by
            simp [deleteStaged]] at h
        rcases hc : commitDelete nid v l r with _ | ⟨s2, fid2⟩
        · rw [hc] at h
          simp at h
        · rw [hc] at h
          simp only [DelResult.deleted.injEq] at h
          obtain ⟨rfl, rfl⟩ := h
          exact commitDelete_spec nid v l r s2 fid2 hc
      · by_cases hlt : v < w
        · rw [show deleteStaged (.node nid w l r) v =
            (match deleteStaged l v with
             | DelResult.notFound => DelResult.notFound
             | DelResult.deleted l2 fid => DelResult.deleted (.node nid w l2 r) fid
             | DelResult.fallback l2 => DelResult.fallback (.node nid w l2 r)) from by
              simp [deleteStaged, hv, hlt]] at h
          rcases hd : deleteStaged l v with _ | ⟨l2, fid2⟩ | l2
          · rw [hd] at h
            simp at h
          · rw [hd] at h
            simp only [DelResult.deleted.injEq] at h
            obtain ⟨rfl, rfl⟩ := h
            obtain ⟨ih1, ih2, ih3⟩ := ihl l2 fid2 hd
            refine ⟨?_, ?_, fun hb => ?_⟩
            · rw [show vals (.node nid w l r) = w ::ₘ (vals l + vals r) from rfl, ih1,
                show vals (.node nid w l2 r) = w ::ₘ (vals l2 + vals r) from rfl,
                Multiset.cons_add, Multiset.cons_swap]
            · rw [show ids (.node nid w l r) = nid ::ₘ (ids l + ids r) from rfl, ih2,
                show ids (.node nid w l2 r) = nid ::ₘ (ids l2 + ids r) from rfl,
                Multiset.cons_add, Multiset.cons_swap]
            · obtain ⟨h1, h2, h3, h4⟩ := isBST_node.mp hb
              refine isBST_node.mpr ⟨?_, h2, ih3 h3, h4⟩
              rw [allLT_iff]
              intro x hx
              refine (allLT_iff l w).mp h1 x ?_
              rw [ih1]
              exact Multiset.mem_cons_of_mem hx
          · rw [hd] at h
            simp at h
        · rw [show deleteStaged (.node nid w l r) v =
            (match deleteStaged r v with
             | DelResult.notFound => DelResult.notFound
             | DelResult.deleted r2 fid => DelResult.deleted (.node nid w l r2) fid
             | DelResult.fallback r2 => DelResult.fallback (.node nid w l r2)) from by
              simp [deleteStaged, hv, hlt]] at h
          rcases hd : deleteStaged r v with _ | ⟨r2, fid2⟩ | r2
          · rw [hd] at h
            simp at h
          · rw [hd] at h
            simp only [DelResult.deleted.injEq] at h
            obtain ⟨rfl, rfl⟩ := h
            obtain ⟨ih1, ih2, ih3⟩ := ihr r2 fid2 hd
            refine ⟨?_, ?_, fun hb => ?_⟩
            · rw [show vals (.node nid w l r) = w ::ₘ (vals l + vals r) from rfl, ih1,
                show vals (.node nid w l r2) = w ::ₘ (vals l + vals r2) from rfl,
                Multiset.add_cons, Multiset.cons_swap]
            · rw [show ids (.node nid w l r) = nid ::ₘ (ids l + ids r) from rfl, ih2,
                show ids (.node nid w l r2) = nid ::ₘ (ids l + ids r2) from rfl,
                Multiset.add_cons, Multiset.cons_swap]
            · obtain ⟨h1, h2, h3, h4⟩ := isBST_node.mp hb
              refine isBST_node.mpr ⟨h1, ?_, h3, ih3 h4⟩
              rw [allGE_iff]
              intro x hx
              refine (allGE_iff r w).mp h2 x ?_
              rw [ih1]
              exact Multiset.mem_cons_of_mem hx
          · rw [hd] at h
            simp at h

theorem deleteStaged_notFallback (t : Tree) (v : Int) (s : Tree) :
    deleteStaged t v ≠ .fallback s := by
  induction t generalizing s with
  | nil => simp [deleteStaged]
  | node nid w l r ihl ihr =>
      by_cases hv : v = w
      · subst hv
        rw [show deleteStaged (.node nid v l r) v =
          (match commitDelete nid v l r with
           | some (s, fid) => DelResult.deleted s fid
           | none => DelResult.fallback (.node nid v l r)) from by
            simp [deleteStaged]]
        rcases hc : commitDelete nid v l r with _ | ⟨s2, fid2⟩
        · have := commitDelete_isSome nid v l r
          rw [hc] at this
          simp at this
        · simp
      · by_cases hlt : v < w
        · rw [show deleteStaged (.node nid w l r) v =
            (match deleteStaged l v with
             | DelResult.notFound => DelResult.notFound
             | DelResult.deleted l2 fid => DelResult.deleted (.node nid w l2 r) fid
             | DelResult.fallback l2 => DelResult.fallback (.node nid w l2 r)) from by
              simp [deleteStaged, hv, hlt]]
          rcases hd : deleteStaged l v with _ | ⟨l2, fid2⟩ | l2
          · simp
          · simp
          · exact absurd hd (ihl l2)
        · rw [show deleteStaged (.node nid w l r) v =
            (match deleteStaged r v with
             | DelResult.notFound => DelResult.notFound
             | DelResult.deleted r2 fid => DelResult.deleted (.node nid w l r2) fid
             | DelResult.fallback r2 => DelResult.fallback (.node nid w l r2)) from by
              simp [deleteStaged, hv, hlt]]
          rcases hd : deleteStaged r v with _ | ⟨r2, fid2⟩ | r2
          · simp
          · simp
          · exact absurd hd (ihr r2)

theorem deleteStaged_insert (t : Tree) (f : Nat) (v : Int) :
    ∃ s fid, deleteStaged (insert t f v) v = .deleted s fid := by
  induction t with
  | nil =>
      refine ⟨.nil, f, ?_⟩
      simp [insert, deleteStaged, commitDelete]
  | node nid w l r ihl ihr =>
      by_cases hlt : v < w
      · obtain ⟨s, fid, ih⟩ := ihl
        refine ⟨.node nid w s r, fid, ?_⟩
        have hne : ¬(v = w) := ne_of_lt hlt
        rw [show insert (.node nid w l r) f v = .node nid w (insert l f v) r from by
          simp [insert, hlt]]
        rw [show deleteStaged (.node nid w (insert l f v) r) v =
          (match deleteStaged (insert l f v) v with
           | DelResult.notFound => DelResult.notFound
           | DelResult.deleted l2 fid => DelResult.deleted (.node nid w l2 r) fid
           | DelResult.fallback l2 => DelResult.fallback (.node nid w l2 r)) from by
            simp [deleteStaged, hne, hlt]]
        rw [ih]
      · rw [show insert (.node nid w l r) f v = .node nid w l (insert r f v) from by
          simp [insert, hlt]]
        by_cases hv : v = w
        · subst hv
          rcases hc : commitDelete nid v l (insert r f v) with _ | ⟨s2, fid2⟩
          · have := commitDelete_isSome nid v l (insert r f v)
            rw [hc] at this
            simp at this
          · refine ⟨s2, fid2, ?_⟩
            rw [show deleteStaged (.node nid v l (insert r f v)) v =
              (match commitDelete nid v l (insert r f v) with
               | some (s, fid) => DelResult.deleted s fid
               | none => DelResult.fallback (.node nid v l (insert r f v))) from by
                simp [deleteStaged]]
            rw [hc]
        · obtain ⟨s, fid, ih⟩ := ihr
          refine ⟨.node nid w l s, fid, ?_⟩
          rw [show deleteStaged (.node nid w l (insert r f v)) v =
            (match deleteStaged (insert r f v) v with
             | DelResult.notFound => DelResult.notFound
             | DelResult.deleted r2 fid => DelResult.deleted (.node nid w l r2) fid
             | DelResult.fallback r2 => DelResult.fallback (.node nid w l r2)) from by
              simp [deleteStaged, hv, hlt]]
          rw [ih]

theorem deleteStaged_eq_structural (t : Tree) (v : Int) :
    deleteStaged t v =
      (match deleteStructural t v with
       | none => DelResult.notFound
       | some p => DelResult.deleted p.1 p.2) := by
  induction t with
  | nil => simp [deleteStaged, deleteStructural]
  | node nid w l r ihl ihr =>
      by_cases hv : v = w
      · subst hv
        rw [show deleteStaged (.node nid v l r) v =
          (match commitDelete nid v l r with
           | some (s, fid) => DelResult.deleted s fid
           | none => DelResult.fallback (.node nid v l r)) from by
            simp [deleteStaged]]
        rw [show deleteStructural (.node nid v l r) v = some (delSub nid v l r) from by
          simp [deleteStructural]]
        rw [commitDelete_delSub]
      · by_cases hlt : v < w
        · rw [show deleteStaged (.node nid w l r) v =
            (match deleteStaged l v with
             | DelResult.notFound => DelResult.notFound
             | DelResult.deleted l2 fid => DelResult.deleted (.node nid w l2 r) fid
             | DelResult.fallback l2 => DelResult.fallback (.node nid w l2 r)) from by
              simp [deleteStaged, hv, hlt]]
          rw [show deleteStructural (.node nid w l r) v =
            (deleteStructural l v).map (fun p => ((.node nid w p.1 r : Tree), p.2)) from by
              simp [deleteStructural, hv, hlt]]
          rcases hd : deleteStructural l v with _ | ⟨s2, fid2⟩
          · rw [ihl, hd]
            rfl
          · rw [ihl, hd]
            rfl
        · rw [show deleteStaged (.node nid w l r) v =
            (match deleteStaged r v with
             | DelResult.notFound => DelResult.notFound
             | DelResult.deleted r2 fid => DelResult.deleted (.node nid w l r2) fid
             | DelResult.fallback r2 => DelResult.fallback (.node nid w l r2)) from by
              simp [deleteStaged, hv, hlt]]
          rw [show deleteStructural (.node nid w l r) v =
            (deleteStructural r v).map (fun p => ((.node nid w l p.1 : Tree), p.2)) from by
              simp [deleteStructural, hv, hlt]]
          rcases hd : deleteStructural r v with _ | ⟨s2, fid2⟩
          · rw [ihr, hd]
            rfl
          · rw [ihr, hd]
            rfl

/-! ### Path algebra -/

theorem subtreeAt_nil (t : Tree) : subtreeAt t [] = some t := by
  cases t <;> rfl

theorem replaceAt_nil (t s : Tree) : replaceAt t [] s = some s := by
  cases t <;> rfl

theorem replaceAt_append (p : List Dir) (t u s u2 : Tree) (q : List Dir)
    (hsub : subtreeAt t p = some u) (hrep : replaceAt u q s = some u2) :
    replaceAt t (p ++ q) s = replaceAt t p u2 := by
  induction p generalizing t with
  | nil =>
      rw [subtreeAt_nil] at hsub
      simp only [Option.some.injEq] at hsub
      subst hsub
      rw [List.nil_append, hrep, replaceAt_nil]
  | cons d p2 ih =>
      cases t with
      | nil => simp [subtreeAt] at hsub
      | node nid v l r =>
          cases d with
          | L =>
              have hsub2 : subtreeAt l p2 = some u := hsub
              rw [show ((Dir.L :: p2) ++ q) = Dir.L :: (p2 ++ q) from rfl]
              rw [show replaceAt (.node nid v l r) (Dir.L :: (p2 ++ q)) s =
                (replaceAt l (p2 ++ q) s).map (fun l2 => .node nid v l2 r) from rfl]
              rw [ih l hsub2]
              rfl
          | R =>
              have hsub2 : subtreeAt r p2 = some u := hsub
              rw [show ((Dir.R :: p2) ++ q) = Dir.R :: (p2 ++ q) from rfl]
              rw [show replaceAt (.node nid v l r) (Dir.R :: (p2 ++ q)) s =
                (replaceAt r (p2 ++ q) s).map (fun r2 => .node nid v l r2) from rfl]
              rw [ih r hsub2]
              rfl

theorem replaceAt_replaceAt (p : List Dir) (t a t1 b : Tree)
    (h : replaceAt t p a = some t1) :
    replaceAt t1 p b = replaceAt t p b := by
  induction p generalizing t t1 with
  | nil =>
      rw [replaceAt_nil] at h
      simp only [Option.some.injEq] at h
      subst h
      rw [replaceAt_nil, replaceAt_nil]
  | cons d p2 ih =>
      cases t with
      | nil => simp [replaceAt] at h
      | node nid v l r =>
          cases d with
          | L =>
              rw [show replaceAt (.node nid v l r) (Dir.L :: p2) a =
                (replaceAt l p2 a).map (fun l2 => .node nid v l2 r) from rfl] at h
              rcases hl : replaceAt l p2 a with _ | l1
              · rw [hl] at h
                simp at h
              · rw [hl] at h
                simp only [Option.map_some', Option.some.injEq] at h
                subst h
                rw [show replaceAt (.node nid v l1 r) (Dir.L :: p2) b =
                  (replaceAt l1 p2 b).map (fun l2 => .node nid v l2 r) from rfl]
                rw [ih l l1 hl]
                rfl
          | R =>
              rw [show replaceAt (.node nid v l r) (Dir.R :: p2) a =
                (replaceAt r p2 a).map (fun r2 => .node nid v l r2) from rfl] at h
              rcases hr : replaceAt r p2 a with _ | r1
              · rw [hr] at h
                simp at h
              · rw [hr] at h
                simp only [Option.map_some', Option.some.injEq] at h
                subst h
                rw [show replaceAt (.node nid v l r1) (Dir.R :: p2) b =
                  (replaceAt r1 p2 b).map (fun r2 => .node nid v l r2) from rfl]
                rw [ih r r1 hr]
                rfl

theorem subtreeAt_replaceAt (p : List Dir) (t s t2 : Tree)
    (h : replaceAt t p s = some t2) : subtreeAt t2 p = some s := by
  induction p generalizing t t2 with
  | nil =>
      rw [replaceAt_nil] at h
      simp only [Option.some.injEq] at h
      subst h
      rw [subtreeAt_nil]
  | cons d p2 ih =>
      cases t with
      | nil => simp [replaceAt] at h
      | node nid v l r =>
          cases d with
          | L =>
              rw [show replaceAt (.node nid v l r) (Dir.L :: p2) s =
                (replaceAt l p2 s).map (fun l2 => .node nid v l2 r) from rfl] at h
              rcases hl : replaceAt l p2 s with _ | l1
              · rw [hl] at h
                simp at h
              · rw [hl] at h
                simp only [Option.map_some', Option.some.injEq] at h
                subst h
                exact ih l l1 hl
          | R =>
              rw [show replaceAt (.node nid v l r) (Dir.R :: p2) s =
                (replaceAt r p2 s).map (fun r2 => .node nid v l r2) from rfl] at h
              rcases hr : replaceAt r p2 s with _ | r1
              · rw [hr] at h
                simp at h
              · rw [hr] at h
                simp only [Option.map_some', Option.some.injEq] at h
                subst h
                exact ih r r1 hr

theorem setValAt_eq_replaceAt (p : List Dir) (t : Tree) (nid : Nat) (v x : Int)
    (l r : Tree) (h : subtreeAt t p = some (.node nid v l r)) :
    setValAt t p x = replaceAt t p (.node nid x l r) := by
  induction p generalizing t with
  | nil =>
      rw [subtreeAt_nil] at h
      simp only [Option.some.injEq] at h
      subst h
      rw [replaceAt_nil]
      rfl
  | cons d p2 ih =>
      cases t with
      | nil => simp [subtreeAt] at h
      | node n2 v2 l2 r2 =>
          cases d with
          | L =>
              have h2 : subtreeAt l2 p2 = some (.node nid v l r) := h
              rw [show setValAt (.node n2 v2 l2 r2) (Dir.L :: p2) x =
                (setValAt l2 p2 x).map (fun l3 => .node n2 v2 l3 r2) from rfl]
              rw [show replaceAt (.node n2 v2 l2 r2) (Dir.L :: p2) (.node nid x l r) =
                (replaceAt l2 p2 (.node nid x l r)).map (fun l3 => .node n2 v2 l3 r2)
                from rfl]
              rw [ih l2 h2]
          | R =>
              have h2 : subtreeAt r2 p2 = some (.node nid v l r) := h
              rw [show setValAt (.node n2 v2 l2 r2) (Dir.R :: p2) x =
                (setValAt r2 p2 x).map (fun r3 => .node n2 v2 l2 r3) from rfl]
              rw [show replaceAt (.node n2 v2 l2 r2) (Dir.R :: p2) (.node nid x l r) =
                (replaceAt r2 p2 (.node nid x l r)).map (fun r3 => .node n2 v2 l2 r3)
                from rfl]
              rw [ih r2 h2]

/-! ### Locating the delete target -/

theorem locate_eq_of_ne_lt {nid : Nat} {w : Int} {l r : Tree} {v : Int}
    (hv : v ≠ w) (hlt : v < w) :
    locate (.node nid w l r) v = (locate l v).map (Dir.L :: ·) := by
  simp [locate, hv, hlt]

theorem locate_eq_of_ne_gt {nid : Nat} {w : Int} {l r : Tree} {v : Int}
    (hv : v ≠ w) (hlt : ¬ v < w) :
    locate (.node nid w l r) v = (locate r v).map (Dir.R :: ·) := by
  simp [locate, hv, hlt]

theorem locate_eq_of_eq {nid : Nat} {w : Int} {l r : Tree} :
    locate (.node nid w l r) w = some [] := by
  simp [locate]

theorem locate_subtree (t : Tree) (v : Int) (p : List Dir)
    (h : locate t v = some p) :
    ∃ nid l r, subtreeAt t p = some (.node nid v l r) := by
  induction t generalizing p with
  | nil => simp [locate] at h
  | node nid w l r ihl ihr =>
      by_cases hv : v = w
      · subst hv
        rw [locate_eq_of_eq] at h
        simp only [Option.some.injEq] at h
        subst h
        exact ⟨nid, l, r, subtreeAt_nil _⟩
      · by_cases hlt : v < w
        · rw [locate_eq_of_ne_lt hv hlt] at h
          rcases hl : locate l v with _ | p2
          · rw [hl] at h
            simp at h
          · rw [hl] at h
            simp only [Option.map_some', Option.some.injEq] at h
            subst h
            obtain ⟨n2, l2, r2, h2⟩ := ihl p2 hl
            exact ⟨n2, l2, r2, h2⟩
        · rw [locate_eq_of_ne_gt hv hlt] at h
          rcases hr : locate r v with _ | p2
          · rw [hr] at h
            simp at h
          · rw [hr] at h
            simp only [Option.map_some', Option.some.injEq] at h
            subst h
            obtain ⟨n2, l2, r2, h2⟩ := ihr p2 hr
            exact ⟨n2, l2, r2, h2⟩

theorem deleteStaged_as_replace (t : Tree) (v : Int) (s : Tree) (fid : Nat)
    (h : deleteStaged t v = .deleted s fid) :
    ∃ p nid l r s2, locate t v = some p ∧ subtreeAt t p = some (.node nid v l r) ∧
      commitDelete nid v l r = some (s2, fid) ∧ replaceAt t p s2 = some s := by
  induction t generalizing s fid with
  | nil => simp [deleteStaged] at h
  | node nid w l r ihl ihr =>
      by_cases hv : v = w
      · subst hv
        rw [show deleteStaged (.node nid v l r) v =
          (match commitDelete nid v l r with
           | some (s, fid) => DelResult.deleted s fid
           | none => DelResult.fallback (.node nid v l r)) from by
            simp [deleteStaged]] at h
        rcases hc : commitDelete nid v l r with _ | ⟨s2, fid2⟩
        · rw [hc] at h
          simp at h
        · rw [hc] at h
          simp only [DelResult.deleted.injEq] at h
          obtain ⟨rfl, rfl⟩ := h
          exact ⟨[], nid, l, r, s2, locate_eq_of_eq, subtreeAt_nil _, hc, replaceAt_nil _ _⟩
      · by_cases hlt : v < w
        · rw [show deleteStaged (.node nid w l r) v =
            (match deleteStaged l v with
             | DelResult.notFound => DelResult.notFound
             | DelResult.deleted l2 fid => DelResult.deleted (.node nid w l2 r) fid
             | DelResult.fallback l2 => DelResult.fallback (.node nid w l2 r)) from by
              simp [deleteStaged, hv, hlt]] at h
          rcases hd : deleteStaged l v with _ | ⟨l2, fid2⟩ | l2
          · rw [hd] at h
            simp at h
          · rw [hd] at h
            simp only [DelResult.deleted.injEq] at h
            obtain ⟨rfl, rfl⟩ := h
            obtain ⟨p2, n2, la, ra, s2, hp, hsub, hc, hrep⟩ := ihl l2 fid2 hd
            refine ⟨Dir.L :: p2, n2, la, ra, s2, ?_, hsub, hc, ?_⟩
            · rw [locate_eq_of_ne_lt hv hlt, hp]
              rfl
            · rw [show replaceAt (.node nid w l r) (Dir.L :: p2) s2 =
                (replaceAt l p2 s2).map (fun l3 => .node nid w l3 r) from rfl, hrep]
              rfl
          · rw [hd] at h
            simp at h
        · rw [show deleteStaged (.node nid w l r) v =
            (match deleteStaged r v with
             | DelResult.notFound => DelResult.notFound
             | DelResult.deleted r2 fid => DelResult.deleted (.node nid w l r2) fid
             | DelResult.fallback r2 => DelResult.fallback (.node nid w l r2)) from by
              simp [deleteStaged, hv, hlt]] at h
          rcases hd : deleteStaged r v with _ | ⟨r2, fid2⟩ | r2
          · rw [hd] at h
            simp at h
          · rw [hd] at h
            simp only [DelResult.deleted.injEq] at h
            obtain ⟨rfl, rfl⟩ := h
            obtain ⟨p2, n2, la, ra, s2, hp, hsub, hc, hrep⟩ := ihr r2 fid2 hd
            refine ⟨Dir.R :: p2, n2, la, ra, s2, ?_, hsub, hc, ?_⟩
            · rw [locate_eq_of_ne_gt hv hlt, hp]
              rfl
            · rw [show replaceAt (.node nid w l r) (Dir.R :: p2) s2 =
                (replaceAt r p2 s2).map (fun r3 => .node nid w l r3) from rfl, hrep]
              rfl
          · rw [hd] at h
            simp at h

theorem locate_deleteStaged (t : Tree) (v : Int) (p : List Dir) (nid : Nat)
    (l r s2 : Tree) (fid : Nat) (hp : locate t v = some p)
    (hsub : subtreeAt t p = some (.node nid v l r))
    (hc : commitDelete nid v l r = some (s2, fid)) :
    ∃ s, replaceAt t p s2 = some s ∧ deleteStaged t v = .deleted s fid := by
  induction t generalizing p with
  | nil => simp [locate] at hp
  | node n0 w l0 r0 ihl ihr =>
      by_cases hv : v = w
      · subst hv
        rw [locate_eq_of_eq] at hp
        simp only [Option.some.injEq] at hp
        subst hp
        rw [subtreeAt_nil] at hsub
        simp only [Option.some.injEq, Tree.node.injEq] at hsub
        obtain ⟨rfl, -, rfl, rfl⟩ := hsub
        refine ⟨s2, replaceAt_nil _ _, ?_⟩
        rw [show deleteStaged (.node n0 v l0 r0) v =
          (match commitDelete n0 v l0 r0 with
           | some (s, fid) => DelResult.deleted s fid
           | none => DelResult.fallback (.node n0 v l0 r0)) from by
            simp [deleteStaged]]
        rw [hc]
      · by_cases hlt : v < w
        · rw [locate_eq_of_ne_lt hv hlt] at hp
          rcases hl : locate l0 v with _ | p2
          · rw [hl] at hp
            simp at hp
          · rw [hl] at hp
            simp only [Option.map_some', Option.some.injEq] at hp
            subst hp
            have hsub2 : subtreeAt l0 p2 = some (.node nid v l r) := hsub
            obtain ⟨s, hrep, hdel⟩ := ihl p2 hl hsub2
            refine ⟨.node n0 w s r0, ?_, ?_⟩
            · rw [show replaceAt (.node n0 w l0 r0) (Dir.L :: p2) s2 =
                (replaceAt l0 p2 s2).map (fun l3 => .node n0 w l3 r0) from rfl, hrep]
              rfl
            · rw [show deleteStaged (.node n0 w l0 r0) v =
                (match deleteStaged l0 v with
                 | DelResult.notFound => DelResult.notFound
                 | DelResult.deleted l2 fid => DelResult.deleted (.node n0 w l2 r0) fid
                 | DelResult.fallback l2 => DelResult.fallback (.node n0 w l2 r0))
                from by simp [deleteStaged, hv, hlt]]
              rw [hdel]
        · rw [locate_eq_of_ne_gt hv hlt] at hp
          rcases hr : locate r0 v with _ | p2
          · rw [hr] at hp
            simp at hp
          · rw [hr] at hp
            simp only [Option.map_some', Option.some.injEq] at hp
            subst hp
            have hsub2 : subtreeAt r0 p2 = some (.node nid v l r) := hsub
            obtain ⟨s, hrep, hdel⟩ := ihr p2 hr hsub2
            refine ⟨.node n0 w l0 s, ?_, ?_⟩
            · rw [show replaceAt (.node n0 w l0 r0) (Dir.R :: p2) s2 =
                (replaceAt r0 p2 s2).map (fun r3 => .node n0 w l0 r3) from rfl, hrep]
              rfl
            · rw [show deleteStaged (.node n0 w l0 r0) v =
                (match deleteStaged r0 v with
                 | DelResult.notFound => DelResult.notFound
                 | DelResult.deleted r2 fid => DelResult.deleted (.node n0 w l0 r2) fid
                 | DelResult.fallback r2 => DelResult.fallback (.node n0 w l0 r2))
                from by simp [deleteStaged, hv, hlt]]
              rw [hdel]

/-! ### The leftmost (inorder-successor) slot -/

theorem leftmostPath_spec (c : Tree) :
    ∀ a b d, (∀ d2 ∈ leftmostPath (.node a b c d), d2 = Dir.L) ∧
      ∃ sr, subtreeAt (.node a b c d) (leftmostPath (.node a b c d)) =
          some (.node (removeLeftmost a b c d).1 (removeLeftmost a b c d).2.1 .nil sr) ∧
        replaceAt (.node a b c d) (leftmostPath (.node a b c d)) sr =
          some (removeLeftmost a b c d).2.2 := by
  induction c with
  | nil =>
      intro a b d
      exact ⟨by simp [leftmostPath], d, rfl, rfl⟩
  | node a2 b2 c2 d2 ihc ihd =>
      intro a b d
      obtain ⟨hall, sr, hsub, hrep⟩ := ihc a2 b2 d2
      constructor
      · intro x hx
        rw [show leftmostPath (.node a b (.node a2 b2 c2 d2) d) =
          Dir.L :: leftmostPath (.node a2 b2 c2 d2) from rfl] at hx
        rcases List.mem_cons.mp hx with rfl | hx
        · rfl
        · exact hall x hx
      · refine ⟨sr, ?_, ?_⟩
        · rw [show leftmostPath (.node a b (.node a2 b2 c2 d2) d) =
            Dir.L :: leftmostPath (.node a2 b2 c2 d2) from rfl]
          rw [show subtreeAt (.node a b (.node a2 b2 c2 d2) d)
              (Dir.L :: leftmostPath (.node a2 b2 c2 d2)) =
            subtreeAt (.node a2 b2 c2 d2) (leftmostPath (.node a2 b2 c2 d2)) from rfl]
          rw [hsub]
          rfl
        · rw [show leftmostPath (.node a b (.node a2 b2 c2 d2) d) =
            Dir.L :: leftmostPath (.node a2 b2 c2 d2) from rfl]
          rw [show replaceAt (.node a b (.node a2 b2 c2 d2) d)
              (Dir.L :: leftmostPath (.node a2 b2 c2 d2)) sr =
            (replaceAt (.node a2 b2 c2 d2) (leftmostPath (.node a2 b2 c2 d2)) sr).map
              (fun l3 => .node a b l3 d) from rfl]
          rw [hrep]
          rfl

/-! ### The insertion slot -/

theorem insPos_subtree (t : Tree) (v : Int) : subtreeAt t (insPos t v) = some .nil := by
  induction t with
  | nil => rfl
  | node nid w l r ihl ihr =>
      by_cases hv : v < w
      · rw [show insPos (.node nid w l r) v = Dir.L :: insPos l v from by simp [insPos, hv]]
        exact ihl
      · rw [show insPos (.node nid w l r) v = Dir.R :: insPos r v from by simp [insPos, hv]]
        exact ihr

theorem insPos_replace (t : Tree) (f : Nat) (v : Int) :
    replaceAt t (insPos t v) (.node f v .nil .nil) = some (insert t f v) := by
  induction t with
  | nil => rfl
  | node nid w l r ihl ihr =>
      by_cases hv : v < w
      · rw [show insPos (.node nid w l r) v = Dir.L :: insPos l v from by simp [insPos, hv]]
        rw [show insert (.node nid w l r) f v = .node nid w (insert l f v) r from by
          simp [insert, hv]]
        rw [show replaceAt (.node nid w l r) (Dir.L :: insPos l v) (.node f v .nil .nil) =
          (replaceAt l (insPos l v) (.node f v .nil .nil)).map
            (fun l3 => .node nid w l3 r) from rfl, ihl]
        rfl
      · rw [show insPos (.node nid w l r) v = Dir.R :: insPos r v from by simp [insPos, hv]]
        rw [show insert (.node nid w l r) f v = .node nid w l (insert r f v) from by
          simp [insert, hv]]
        rw [show replaceAt (.node nid w l r) (Dir.R :: insPos r v) (.node f v .nil .nil) =
          (replaceAt r (insPos r v) (.node f v .nil .nil)).map
            (fun r3 => .node nid w l r3) from rfl, ihr]
        rfl

theorem insPos_dup (t : Tree) (v : Int) (q : List Dir) (nid : Nat) (w : Int)
    (l r : Tree) (hsub : subtreeAt t q = some (.node nid w l r))
    (hon : ∃ rest, insPos t v = q ++ rest) (hw : w = v) :
    ∃ rest2, insPos t v = q ++ Dir.R :: rest2 := by
  induction q generalizing t with
  | nil =>
      rw [subtreeAt_nil] at hsub
      simp only [Option.some.injEq] at hsub
      subst hsub
      subst hw
      have hnv : ¬(w < w) := lt_irrefl w
      rw [show insPos (.node nid w l r) w = Dir.R :: insPos r w from by
        simp [insPos, hnv]]
      exact ⟨insPos r w, rfl⟩
  | cons d q2 ih =>
      cases t with
      | nil => simp [subtreeAt] at hsub
      | node n2 w2 l2 r2 =>
          obtain ⟨rest, hrest⟩ := hon
          by_cases hv : v < w2
          · rw [show insPos (.node n2 w2 l2 r2) v = Dir.L :: insPos l2 v from by
              simp [insPos, hv]] at hrest ⊢
            cases d with
            | L =>
                have hsub2 : subtreeAt l2 q2 = some (.node nid w l r) := hsub
                have hon2 : ∃ rest, insPos l2 v = q2 ++ rest := by
                  refine ⟨rest, ?_⟩
                  have := hrest
                  simp only [List.cons_append, List.cons.injEq] at this
                  exact this.2
                obtain ⟨rest2, h2⟩ := ih l2 hsub2 hon2
                exact ⟨rest2, by rw [h2]; rfl⟩
            | R =>
                simp only [List.cons_append, List.cons.injEq] at hrest
                exact absurd hrest.1 (by simp)
          · rw [show insPos (.node n2 w2 l2 r2) v = Dir.R :: insPos r2 v from by
              simp [insPos, hv]] at hrest ⊢
            cases d with
            | L =>
                simp only [List.cons_append, List.cons.injEq] at hrest
                exact absurd hrest.1 (by simp)
            | R =>
                have hsub2 : subtreeAt r2 q2 = some (.node nid w l r) := hsub
                have hon2 : ∃ rest, insPos r2 v = q2 ++ rest := by
                  refine ⟨rest, ?_⟩
                  have := hrest
                  simp only [List.cons_append, List.cons.injEq] at this
                  exact this.2
                obtain ⟨rest2, h2⟩ := ih r2 hsub2 hon2
                exact ⟨rest2, by rw [h2]; rfl⟩

/-! ### Inorder traversal and sortedness -/

theorem mem_inorder (x : Int) (t : Tree) : x ∈ inorder t ↔ x ∈ vals t := by
  induction t with
  | nil => simp [inorder, vals]
  | node nid v l r ihl ihr =>
      rw [show inorder (.node nid v l r) = inorder l ++ v :: inorder r from rfl]
      simp only [List.mem_append, List.mem_cons, ihl, ihr, mem_vals_node]
      tauto

theorem pairwise_inorder (t : Tree) (h : isBST t = true) :
    List.Pairwise (· ≤ ·) (inorder t) := by
  induction t with
  | nil => simp [inorder]
  | node nid v l r ihl ihr =>
      obtain ⟨hlt, hge, hbl, hbr⟩ := isBST_node.mp h
      rw [show inorder (.node nid v l r) = inorder l ++ v :: inorder r from rfl]
      rw [List.pairwise_append]
      refine ⟨ihl hbl, ?_, ?_⟩
      · rw [List.pairwise_cons]
        refine ⟨fun y hy => ?_, ihr hbr⟩
        exact (allGE_iff r v).mp hge y ((mem_inorder y r).mp hy)
      · intro x hx y hy
        have hxv : x < v := (allLT_iff l v).mp hlt x ((mem_inorder x l).mp hx)
        rcases List.mem_cons.mp hy with rfl | hy
        · exact le_of_lt hxv
        · exact le_of_lt (lt_of_lt_of_le hxv
            ((allGE_iff r v).mp hge y ((mem_inorder y r).mp hy)))

/-! ### Sequences of settled operations -/

theorem isBST_applyOp (t : Tree) (f : Nat) (op : Op) (h : isBST t = true) :
    isBST (applyOp (t, f) op).1 = true := by
  cases op with
  | ins v => exact isBST_insert t f v h
  | del v =>
      rcases hd : deleteStaged t v with _ | ⟨t2, fid⟩ | t2
      · rw [show applyOp (t, f) (.del v) = (t, f) from by simp [applyOp, hd]]
        exact h
      · rw [show applyOp (t, f) (.del v) = (t2, f) from by simp [applyOp, hd]]
        exact (deleteStaged_deleted t v t2 fid hd).2.2 h
      · exact absurd hd (deleteStaged_notFallback t v t2)

theorem isBST_foldl (ops : List Op) (t : Tree) (f : Nat) (h : isBST t = true) :
    isBST (ops.foldl applyOp (t, f)).1 = true := by
  induction ops generalizing t f with
  | nil => exact h
  | cons op rest ih =>
      rw [List.foldl_cons]
      have h2 := isBST_applyOp t f op h
      rcases hap : applyOp (t, f) op with ⟨t2, f2⟩
      rw [hap] at h2
      exact ih t2 f2 h2

/-! ### The two-child commit, path by path -/

theorem replaceAt_isSome (p : List Dir) (t u s : Tree) (h : subtreeAt t p = some u) :
    ∃ t2, replaceAt t p s = some t2 := by
  induction p generalizing t with
  | nil => exact ⟨s, replaceAt_nil t s⟩
  | cons d p2 ih =>
      cases t with
      | nil => simp [subtreeAt] at h
      | node nid v l r =>
          cases d with
          | L =>
              obtain ⟨l2, hl⟩ := ih l h
              refine ⟨.node nid v l2 r, ?_⟩
              rw [show replaceAt (.node nid v l r) (Dir.L :: p2) s =
                (replaceAt l p2 s).map (fun l3 => .node nid v l3 r) from rfl, hl]
              rfl
          | R =>
              obtain ⟨r2, hr⟩ := ih r h
              refine ⟨.node nid v l r2, ?_⟩
              rw [show replaceAt (.node nid v l r) (Dir.R :: p2) s =
                (replaceAt r p2 s).map (fun r3 => .node nid v l r3) from rfl, hr]
              rfl

theorem twoChild_commit_path (t : Tree) (v : Int) (p : List Dir) (nid : Nat)
    (l r : Tree) (hsub : subtreeAt t p = some (.node nid v l r))
    (hl : l ≠ .nil) (hr : r ≠ .nil) :
    ∃ sid sv sr r2 t1 s,
      (∀ d2 ∈ leftmostPath r, d2 = Dir.L) ∧
      subtreeAt r (leftmostPath r) = some (.node sid sv .nil sr) ∧
      commitDelete nid v l r = some (.node nid sv l r2, sid) ∧
      setValAt t p sv = some t1 ∧
      subtreeAt t1 p = some (.node nid sv l r) ∧
      replaceAt t1 (p ++ Dir.R :: leftmostPath r) sr = some s ∧
      replaceAt t p (.node nid sv l r2) = some s ∧
      subtreeAt s p = some (.node nid sv l r2) := by
  cases l with
  | nil => exact absurd rfl hl
  | node l1 l2 l3 l4 =>
      cases r with
      | nil => exact absurd rfl hr
      | node r1 r2 r3 r4 =>
          obtain ⟨hall, sr, hsubr, hrepr⟩ := leftmostPath_spec r3 r1 r2 r4
          refine ⟨(removeLeftmost r1 r2 r3 r4).1,
            (removeLeftmost r1 r2 r3 r4).2.1, sr, (removeLeftmost r1 r2 r3 r4).2.2,
            ?_⟩
          have hcommit : commitDelete nid v (.node l1 l2 l3 l4) (.node r1 r2 r3 r4) =
              some (.node nid (removeLeftmost r1 r2 r3 r4).2.1 (.node l1 l2 l3 l4)
                (removeLeftmost r1 r2 r3 r4).2.2, (removeLeftmost r1 r2 r3 r4).1) := rfl
          obtain ⟨t1, ht1⟩ := replaceAt_isSome p t (.node nid v (.node l1 l2 l3 l4)
            (.node r1 r2 r3 r4)) (.node nid (removeLeftmost r1 r2 r3 r4).2.1
            (.node l1 l2 l3 l4) (.node r1 r2 r3 r4)) hsub
          have hset : setValAt t p (removeLeftmost r1 r2 r3 r4).2.1 = some t1 := by
            rw [setValAt_eq_replaceAt p t nid v (removeLeftmost r1 r2 r3 r4).2.1
              (.node l1 l2 l3 l4) (.node r1 r2 r3 r4) hsub]
            exact ht1
          have hsubt1 : subtreeAt t1 p = some (.node nid (removeLeftmost r1 r2 r3 r4).2.1
              (.node l1 l2 l3 l4) (.node r1 r2 r3 r4)) :=
            subtreeAt_replaceAt p t _ t1 ht1
          have hrepRq : replaceAt (.node nid (removeLeftmost r1 r2 r3 r4).2.1
              (.node l1 l2 l3 l4) (.node r1 r2 r3 r4))
              (Dir.R :: leftmostPath (.node r1 r2 r3 r4)) sr =
              some (.node nid (removeLeftmost r1 r2 r3 r4).2.1 (.node l1 l2 l3 l4)
                (removeLeftmost r1 r2 r3 r4).2.2) := by
            rw [show replaceAt (.node nid (removeLeftmost r1 r2 r3 r4).2.1
                (.node l1 l2 l3 l4) (.node r1 r2 r3 r4))
                (Dir.R :: leftmostPath (.node r1 r2 r3 r4)) sr =
              (replaceAt (.node r1 r2 r3 r4) (leftmostPath (.node r1 r2 r3 r4)) sr).map
                (fun r5 => .node nid (removeLeftmost r1 r2 r3 r4).2.1
                  (.node l1 l2 l3 l4) r5) from rfl, hrepr]
            rfl
          obtain ⟨s, hs⟩ := replaceAt_isSome p t (.node nid v (.node l1 l2 l3 l4)
            (.node r1 r2 r3 r4)) (.node nid (removeLeftmost r1 r2 r3 r4).2.1
            (.node l1 l2 l3 l4) (removeLeftmost r1 r2 r3 r4).2.2) hsub
          refine ⟨t1, s, hall, hsubr, hcommit, hset, hsubt1, ?_, hs,
            subtreeAt_replaceAt p t _ s hs⟩
          rw [replaceAt_append p t1 _ sr _ (Dir.R :: leftmostPath (.node r1 r2 r3 r4))
            hsubt1 hrepRq]
          rw [replaceAt_replaceAt p t _ t1 _ ht1]
          exact hs

/-! ### Claim theorems (tree level) -/

/-- C1: for every sequence of completed Insert and Delete operations starting
from the empty tree, once each operation has settled, the tree satisfies the
BST node invariant (left subtree strictly less, right subtree
greater-than-or-equal) and, equivalently, its inorder traversal is a
non-decreasing sequence. -/
theorem C1_ordering_invariant (ops : List Op) :
    isBST (runOps ops).1 = true ∧
      List.Chain' (· ≤ ·) (inorder (runOps ops).1) := by
  have hb : isBST (runOps ops).1 = true := isBST_foldl ops .nil 0 rfl
  exact ⟨hb, (pairwise_inorder _ hb).chain'⟩

/-- C2: for a delete whose located target has two children, the commit copies
the inorder successor's value into the target node — same node id, same
position, same children; only the value changes — then unlinks the successor
(which has no left child, sitting at an all-left path below the target's right
child) by replacing its slot with its right child, and frees exactly the
successor. -/
theorem C2_two_child_commit (t : Tree) (v : Int) (p : List Dir) (nid : Nat)
    (l r : Tree) (hloc : locate t v = some p)
    (hsub : subtreeAt t p = some (.node nid v l r))
    (hl : l ≠ .nil) (hr : r ≠ .nil) :
    ∃ q sid sv sr r2 t1 s,
      (∀ d2 ∈ q, d2 = Dir.L) ∧
      subtreeAt r q = some (.node sid sv .nil sr) ∧
      setValAt t p sv = some t1 ∧
      subtreeAt t1 p = some (.node nid sv l r) ∧
      replaceAt t1 (p ++ Dir.R :: q) sr = some s ∧
      subtreeAt s p = some (.node nid sv l r2) ∧
      deleteStaged t v = .deleted s sid ∧
      ids t = sid ::ₘ ids s := by
  obtain ⟨sid, sv, sr, r2, t1, s, hall, hsubr, hcommit, hset, hsubt1, hrep1,
    hrep2, hsubs⟩ := twoChild_commit_path t v p nid l r hsub hl hr
  obtain ⟨s2, hrep3, hdel⟩ := locate_deleteStaged t v p nid l r _ sid hloc hsub hcommit
  rw [hrep2] at hrep3
  have hss : s = s2 := Option.some.inj hrep3
  subst hss
  exact ⟨leftmostPath r, sid, sv, sr, r2, t1, s, hall, hsubr, hset, hsubt1, hrep1,
    hsubs, hdel, (deleteStaged_deleted t v s sid hdel).2.1⟩

/-- Witness for C2 on the tree 30 with children 20 and 40, deleting 30. -/
theorem C2_two_child_commit_witness :
    (locate (.node 0 30 (.node 1 20 .nil .nil) (.node 2 40 .nil .nil)) 30 = some [] ∧
      subtreeAt (.node 0 30 (.node 1 20 .nil .nil) (.node 2 40 .nil .nil)) [] =
        some (.node 0 30 (.node 1 20 .nil .nil) (.node 2 40 .nil .nil)) ∧
      (Tree.node 1 20 .nil .nil : Tree) ≠ .nil ∧
      (Tree.node 2 40 .nil .nil : Tree) ≠ .nil) ∧
    (∃ q sid sv sr r2 t1 s,
      (∀ d2 ∈ q, d2 = Dir.L) ∧
      subtreeAt (.node 2 40 .nil .nil) q = some (.node sid sv .nil sr) ∧
      setValAt (.node 0 30 (.node 1 20 .nil .nil) (.node 2 40 .nil .nil)) [] sv =
        some t1 ∧
      subtreeAt t1 [] =
        some (.node 0 sv (.node 1 20 .nil .nil) (.node 2 40 .nil .nil)) ∧
      replaceAt t1 ([] ++ Dir.R :: q) sr = some s ∧
      subtreeAt s [] = some (.node 0 sv (.node 1 20 .nil .nil) r2) ∧
      deleteStaged (.node 0 30 (.node 1 20 .nil .nil) (.node 2 40 .nil .nil)) 30 =
        .deleted s sid ∧
      ids (.node 0 30 (.node 1 20 .nil .nil) (.node 2 40 .nil .nil)) =
        sid ::ₘ ids s) :=
  ⟨⟨by decide, by decide, by decide, by decide⟩,
    C2_two_child_commit (.node 0 30 (.node 1 20 .nil .nil) (.node 2 40 .nil .nil))
      30 [] 0 (.node 1 20 .nil .nil) (.node 2 40 .nil .nil)
      (by decide) (by decide) (by decide) (by decide)⟩

/-- C6: a node with a right child always has an inorder successor
(`FindInorderSuccessor` returns one), so the defensive "no successor"
fallback transition of the two-child delete branch is never taken: the
staged delete never produces a fallback result. -/
theorem C6_successor_exists :
    (∀ (nid : Nat) (v : Int) (l r : Tree), r ≠ .nil →
      (findInorderSuccessor (.node nid v l r)).isSome = true) ∧
    (∀ (t : Tree) (v : Int) (s : Tree), deleteStaged t v ≠ .fallback s) := by
  constructor
  · intro nid v l r hr
    cases r with
    | nil => exact absurd rfl hr
    | node a b c d => rfl
  · intro t v s
    exact deleteStaged_notFallback t v s

/-- Witness for C6 on a node with right child 7, and a one-node tree. -/
theorem C6_successor_exists_witness :
    ((Tree.node 1 7 .nil .nil : Tree) ≠ .nil ∧
      (findInorderSuccessor (.node 0 5 .nil (.node 1 7 .nil .nil))).isSome = true) ∧
    deleteStaged (.node 0 5 .nil .nil) 5 ≠ .fallback (.node 0 5 .nil .nil) :=
  ⟨⟨by decide, C6_successor_exists.1 0 5 .nil (.node 1 7 .nil .nil) (by decide)⟩,
    C6_successor_exists.2 (.node 0 5 .nil .nil) 5 (.node 0 5 .nil .nil)⟩

/-- C7: on every tree, inserting a value and then deleting that same value
(each operation completed) commits a delete and restores the tree's value
multiset. -/
theorem C7_round_trip (t : Tree) (f : Nat) (v : Int) :
    ∃ s fid, deleteStaged (insert t f v) v = .deleted s fid ∧ vals s = vals t := by
  obtain ⟨s, fid, h⟩ := deleteStaged_insert t f v
  refine ⟨s, fid, h, ?_⟩
  have h2 := (deleteStaged_deleted (insert t f v) v s fid h).1
  rw [vals_insert] at h2
  exact ((Multiset.cons_inj_right v).mp h2).symm

/-- C8: insertion always succeeds, creating exactly one new node, as a leaf in
the empty slot at the end of the insertion descent; and the descent continues
right at every node whose value equals the inserted value, so the new leaf
lands in the right subtree of every equal-valued node on its path. -/
theorem C8_insert_descent (t : Tree) (f : Nat) (v : Int) (q : List Dir)
    (nid : Nat) (w : Int) (l r : Tree)
    (hsub : subtreeAt t q = some (.node nid w l r))
    (hon : ∃ rest, insPos t v = q ++ rest) (hw : w = v) :
    ids (insert t f v) = f ::ₘ ids t ∧
    subtreeAt t (insPos t v) = some .nil ∧
    replaceAt t (insPos t v) (.node f v .nil .nil) = some (insert t f v) ∧
    ∃ rest2, insPos t v = q ++ Dir.R :: rest2 :=
  ⟨ids_insert t f v, insPos_subtree t v, insPos_replace t f v,
    insPos_dup t v q nid w l r hsub hon hw⟩

/-- Witness for C8: inserting a duplicate 5 into a tree already holding two
nodes with value 5. -/
theorem C8_insert_descent_witness :
    (subtreeAt (.node 0 5 .nil (.node 1 5 .nil .nil)) [] =
      some (.node 0 5 .nil (.node 1 5 .nil .nil)) ∧
     (∃ rest, insPos (.node 0 5 .nil (.node 1 5 .nil .nil)) 5 = [] ++ rest) ∧
     (5 : Int) = 5) ∧
    (ids (insert (.node 0 5 .nil (.node 1 5 .nil .nil)) 2 5) =
        2 ::ₘ ids (.node 0 5 .nil (.node 1 5 .nil .nil)) ∧
      subtreeAt (.node 0 5 .nil (.node 1 5 .nil .nil))
        (insPos (.node 0 5 .nil (.node 1 5 .nil .nil)) 5) = some .nil ∧
      replaceAt (.node 0 5 .nil (.node 1 5 .nil .nil))
        (insPos (.node 0 5 .nil (.node 1 5 .nil .nil)) 5) (.node 2 5 .nil .nil) =
        some (insert (.node 0 5 .nil (.node 1 5 .nil .nil)) 2 5) ∧
      ∃ rest2, insPos (.node 0 5 .nil (.node 1 5 .nil .nil)) 5 =
        [] ++ Dir.R :: rest2) :=
  ⟨⟨by decide, ⟨[Dir.R, Dir.R], by decide⟩, rfl⟩,
    C8_insert_descent (.node 0 5 .nil (.node 1 5 .nil .nil)) 2 5 []
      0 5 .nil (.node 1 5 .nil .nil) (by decide) ⟨[Dir.R, Dir.R], by decide⟩ rfl⟩

/-- C9: building the tree by inserting 50, 30, 70, 20, 40 in order (each
settled), searching 40 records exactly the descent path [50, 30, 40] and finds
it; deleting 30 (children 20 and 40) commits by writing 40 into the node at
30's position (same node id 1) and removing the original 40 leaf (id 4); the
resulting inorder sequence is [20, 40, 50, 70]. -/
theorem C9_scenario :
    visited (runOps [.ins 50, .ins 30, .ins 70, .ins 20, .ins 40]).1 40 =
      [50, 30, 40] ∧
    descentFound (runOps [.ins 50, .ins 30, .ins 70, .ins 20, .ins 40]).1 40 = true ∧
    subtreeAt (runOps [.ins 50, .ins 30, .ins 70, .ins 20, .ins 40]).1 [Dir.L] =
      some (.node 1 30 (.node 3 20 .nil .nil) (.node 4 40 .nil .nil)) ∧
    deleteStaged (runOps [.ins 50, .ins 30, .ins 70, .ins 20, .ins 40]).1 30 =
      .deleted (.node 0 50 (.node 1 40 (.node 3 20 .nil .nil) .nil)
        (.node 2 70 .nil .nil)) 4 ∧
    inorder (.node 0 50 (.node 1 40 (.node 3 20 .nil .nil) .nil)
      (.node 2 70 .nil .nil)) = [20, 40, 50, 70] := by
  decide

/-- C10: the structural effect committed by the staged delete state machine
equals the direct one-shot structural deleter `DeleteNodeStructural`, both at
any located target node (`commitDelete` versus `delSub`) and as a function
from trees to trees along the shared locate-by-descent. -/
theorem C10_staged_equals_structural :
    (∀ (nid : Nat) (w : Int) (l r : Tree),
      commitDelete nid w l r = some (delSub nid w l r)) ∧
    ∀ (t : Tree) (v : Int),
      deleteStaged t v =
        (match deleteStructural t v with
         | none => DelResult.notFound
         | some p => DelResult.deleted p.1 p.2) :=
  ⟨commitDelete_delSub, deleteStaged_eq_structural⟩

/-! ### Engine lemmas: which update touches which field -/

theorem insertUpdate_of_insIdle (e : Engine) (h : e.insStage = .insIdle) :
    insertUpdate e = e := by
  simp [insertUpdate, h]

theorem deleteUpdate_of_delIdle (e : Engine) (h : e.delStage = .delIdle) :
    deleteUpdate e = e := by
  simp [deleteUpdate, h]

theorem searchUpdate_of_sIdle (e : Engine) (h : e.searchStage = .sIdle) :
    searchUpdate e = e := by
  simp [searchUpdate, h]

theorem insertUpdate_delStage (e : Engine) :
    (insertUpdate e).delStage = e.delStage := by
  rcases h : e.insStage <;> simp only [insertUpdate, h] <;> split_ifs <;> rfl

theorem deleteUpdate_insStage (e : Engine) :
    (deleteUpdate e).insStage = e.insStage := by
  rcases h : e.delStage <;> simp only [deleteUpdate, h]
  case delTraversing => split_ifs <;> rfl
  case delHighlightTarget =>
      split_ifs with h1
      · unfold deleteDecide
        split <;> rfl
      · rfl
  case delHighlightSuccessor => split_ifs <;> rfl
  case delMoveSuccessor =>
      split_ifs with h1
      · unfold commitMoveSuccessor
        split
        · split <;> rfl
        · rfl
      · rfl
  case delMoveChildUp =>
      split_ifs with h1
      · unfold commitMoveChildUp
        split <;> rfl
      · rfl
  case delShrinkRemove => split_ifs <;> rfl
  case delFinalize => split_ifs <;> rfl

theorem searchUpdate_insStage (e : Engine) :
    (searchUpdate e).insStage = e.insStage := by
  rcases h : e.searchStage <;> simp only [searchUpdate, h] <;> split_ifs <;> rfl

theorem searchUpdate_delStage (e : Engine) :
    (searchUpdate e).delStage = e.delStage := by
  rcases h : e.searchStage <;> simp only [searchUpdate, h] <;> split_ifs <;> rfl

theorem searchUpdate_root (e : Engine) : (searchUpdate e).root = e.root := by
  rcases h : e.searchStage <;> simp only [searchUpdate, h] <;> split_ifs <;> rfl

theorem finalizeTimerUpdate_root (e : Engine) :
    (finalizeTimerUpdate e).root = e.root := by
  unfold finalizeTimerUpdate
  split_ifs <;> rfl

theorem finalizeTimerUpdate_delStage (e : Engine) :
    (finalizeTimerUpdate e).delStage = e.delStage := by
  unfold finalizeTimerUpdate
  split_ifs <;> rfl

theorem finalizeTimerUpdate_insStage (e : Engine) :
    (finalizeTimerUpdate e).insStage = e.insStage ∨
      (finalizeTimerUpdate e).insStage = .insIdle := by
  unfold finalizeTimerUpdate
  split_ifs <;> simp

/-! ### Mutual exclusion of the two mutating processes -/

theorem applyCmd_mutex (e : Engine) (c : Cmd)
    (h : e.insStage = .insIdle ∨ e.delStage = .delIdle) :
    (applyCmd e c).insStage = .insIdle ∨ (applyCmd e c).delStage = .delIdle := by
  cases c with
  | cmdIns v =>
      by_cases hg : e.delStage = .delIdle ∧ e.insStage = .insIdle
      · right
        rw [show applyCmd e (.cmdIns v) = startInsertion e v from by simp [applyCmd, hg]]
        simpa [startInsertion] using hg.1
      · rw [show applyCmd e (.cmdIns v) = { e with status := .blocked } from by
          simp [applyCmd, hg]]
        simpa using h
  | cmdDel v =>
      by_cases hg : e.delStage = .delIdle ∧ e.searchStage = .sIdle ∧
          e.insStage = .insIdle
      · left
        rw [show applyCmd e (.cmdDel v) = startDeletion e v from by simp [applyCmd, hg]]
        simpa [startDeletion] using hg.2.2
      · rw [show applyCmd e (.cmdDel v) = { e with status := .blocked } from by
          simp [applyCmd, hg]]
        simpa using h
  | cmdSearch v =>
      by_cases hg : e.delStage = .delIdle ∧ e.insStage = .insIdle ∧
          e.searchStage = .sIdle
      · left
        rw [show applyCmd e (.cmdSearch v) = startSearch e v from by simp [applyCmd, hg]]
        simpa [startSearch] using hg.2.1
      · rw [show applyCmd e (.cmdSearch v) = { e with status := .blocked } from by
          simp [applyCmd, hg]]
        simpa using h

theorem frame_mutex (e1 : Engine)
    (h1 : e1.insStage = .insIdle ∨ e1.delStage = .delIdle) :
    (finalizeTimerUpdate (searchUpdate (deleteUpdate (insertUpdate e1)))).insStage =
        .insIdle ∨
      (finalizeTimerUpdate (searchUpdate (deleteUpdate (insertUpdate e1)))).delStage =
        .delIdle := by
  have h2 : (deleteUpdate (insertUpdate e1)).insStage = .insIdle ∨
      (deleteUpdate (insertUpdate e1)).delStage = .delIdle := by
    rcases h1 with h1 | h1
    · left
      rw [deleteUpdate_insStage, insertUpdate_of_insIdle e1 h1]
      exact h1
    · right
      have hd : (insertUpdate e1).delStage = .delIdle := by
        rw [insertUpdate_delStage]
        exact h1
      rw [deleteUpdate_of_delIdle _ hd]
      exact hd
  have h3 : (searchUpdate (deleteUpdate (insertUpdate e1))).insStage = .insIdle ∨
      (searchUpdate (deleteUpdate (insertUpdate e1))).delStage = .delIdle := by
    rcases h2 with h2 | h2
    · left
      rw [searchUpdate_insStage]
      exact h2
    · right
      rw [searchUpdate_delStage]
      exact h2
  rcases h3 with h3 | h3
  · rcases finalizeTimerUpdate_insStage (searchUpdate (deleteUpdate (insertUpdate e1)))
      with h4 | h4
    · left
      rw [h4]
      exact h3
    · left
      exact h4
  · right
    rw [finalizeTimerUpdate_delStage]
    exact h3

theorem step_mutex (e : Engine) (c : Option Cmd)
    (h : e.insStage = .insIdle ∨ e.delStage = .delIdle) :
    (step e c).insStage = .insIdle ∨ (step e c).delStage = .delIdle := by
  cases c with
  | none => exact frame_mutex e h
  | some cmd => exact frame_mutex (applyCmd e cmd) (applyCmd_mutex e cmd h)

/-! ### Claim C3 -/

/-- C3 (amended): in every reachable state at most one of Insert and Delete is
active; a Search request is rejected (blocked status, no other state change)
whenever Insert or Delete is active; a Delete request is rejected whenever
Search is active or Insert is active; an Insert request is rejected whenever
Delete is active or an Insert is already active — but an Insert requested
while only a Search is active is accepted (the gate at src/main.cpp:406 does
not consult the search stage), unlike what the original claim states. -/
theorem C3_mutual_exclusion :
    (∀ e : Engine, Reachable e →
      e.insStage = .insIdle ∨ e.delStage = .delIdle) ∧
    (∀ (e : Engine) (v : Int), e.insStage ≠ .insIdle ∨ e.delStage ≠ .delIdle →
      applyCmd e (.cmdSearch v) = { e with status := .blocked }) ∧
    (∀ (e : Engine) (v : Int), e.searchStage ≠ .sIdle ∨ e.insStage ≠ .insIdle →
      applyCmd e (.cmdDel v) = { e with status := .blocked }) ∧
    (∀ (e : Engine) (v : Int), e.delStage ≠ .delIdle ∨ e.insStage ≠ .insIdle →
      applyCmd e (.cmdIns v) = { e with status := .blocked }) ∧
    (∀ (e : Engine) (v : Int), e.delStage = .delIdle → e.insStage = .insIdle →
      applyCmd e (.cmdIns v) = startInsertion e v) := by
  refine ⟨?_, ?_, ?_, ?_, ?_⟩
  · intro e he
    induction he with
    | init => exact Or.inl rfl
    | next e2 c h2 ih => exact step_mutex e2 c ih
  · intro e v h
    have hg : ¬(e.delStage = .delIdle ∧ e.insStage = .insIdle ∧
        e.searchStage = .sIdle) := by
      rintro ⟨h1, h2, h3⟩
      rcases h with h | h
      · exact h h2
      · exact h h1
    simp [applyCmd, hg]
  · intro e v h
    have hg : ¬(e.delStage = .delIdle ∧ e.searchStage = .sIdle ∧
        e.insStage = .insIdle) := by
      rintro ⟨h1, h2, h3⟩
      rcases h with h | h
      · exact h h2
      · exact h h3
    simp [applyCmd, hg]
  · intro e v h
    have hg : ¬(e.delStage = .delIdle ∧ e.insStage = .insIdle) := by
      rintro ⟨h1, h2⟩
      rcases h with h | h
      · exact h h1
      · exact h h2
    simp [applyCmd, hg]
  · intro e v h1 h2
    simp [applyCmd, h1, h2]

/-- Witness for C3 (amended) at the initial state, a state with an active
insert, and a state with an active delete. -/
theorem C3_mutual_exclusion_witness :
    (Reachable initEngine ∧
      (initEngine.insStage = .insIdle ∨ initEngine.delStage = .delIdle)) ∧
    (((step initEngine (some (.cmdIns 5))).insStage ≠ .insIdle ∨
        (step initEngine (some (.cmdIns 5))).delStage ≠ .delIdle) ∧
      applyCmd (step initEngine (some (.cmdIns 5))) (.cmdSearch 9) =
        { step initEngine (some (.cmdIns 5)) with status := .blocked }) ∧
    (((step initEngine (some (.cmdIns 5))).searchStage ≠ .sIdle ∨
        (step initEngine (some (.cmdIns 5))).insStage ≠ .insIdle) ∧
      applyCmd (step initEngine (some (.cmdIns 5))) (.cmdDel 9) =
        { step initEngine (some (.cmdIns 5)) with status := .blocked }) ∧
    (((step initEngine (some (.cmdDel 5))).delStage ≠ .delIdle ∨
        (step initEngine (some (.cmdDel 5))).insStage ≠ .insIdle) ∧
      applyCmd (step initEngine (some (.cmdDel 5))) (.cmdIns 9) =
        { step initEngine (some (.cmdDel 5)) with status := .blocked }) ∧
    (initEngine.delStage = .delIdle ∧ initEngine.insStage = .insIdle ∧
      applyCmd initEngine (.cmdIns 9) = startInsertion initEngine 9) :=
  ⟨⟨Reachable.init, C3_mutual_exclusion.1 initEngine Reachable.init⟩,
    ⟨Or.inl (by decide),
      C3_mutual_exclusion.2.1 (step initEngine (some (.cmdIns 5))) 9
        (Or.inl (by decide))⟩,
    ⟨Or.inr (by decide),
      C3_mutual_exclusion.2.2.1 (step initEngine (some (.cmdIns 5))) 9
        (Or.inr (by decide))⟩,
    ⟨Or.inl (by decide),
      C3_mutual_exclusion.2.2.2.1 (step initEngine (some (.cmdDel 5))) 9
        (Or.inl (by decide))⟩,
    ⟨rfl, rfl, C3_mutual_exclusion.2.2.2.2 initEngine 9 rfl rfl⟩⟩

/-- Counterexample to C3 as stated: from the initial state, a search for 5 is
started; while that Search is active (its stage is not idle), a requested
Insert of 7 is accepted — the insert process starts traversing and no blocked
signal is raised — contradicting "a newly requested Insert ... is rejected
with a blocked signal, performing no state change ... whenever Search is
active". -/
theorem C3_counterexample :
    (step initEngine (some (.cmdSearch 5))).searchStage ≠ .sIdle ∧
    (step (step initEngine (some (.cmdSearch 5))) (some (.cmdIns 7))).insStage =
      .insTraversing ∧
    (step (step initEngine (some (.cmdSearch 5))) (some (.cmdIns 7))).status ≠
      .blocked := by
  decide

/-! ### A delete of an absent value -/

theorem locate_none_of_notMem (t : Tree) (v : Int) (hv : v ∉ vals t) :
    locate t v = none := by
  induction t with
  | nil => rfl
  | node nid w l r ihl ihr =>
      have hvw : v ≠ w := fun h => hv (mem_vals_node.mpr (Or.inl h))
      have hvl : v ∉ vals l := fun h => hv (mem_vals_node.mpr (Or.inr (Or.inl h)))
      have hvr : v ∉ vals r := fun h => hv (mem_vals_node.mpr (Or.inr (Or.inr h)))
      by_cases hlt : v < w
      · rw [locate_eq_of_ne_lt hvw hlt, ihl hvl]
        rfl
      · rw [locate_eq_of_ne_gt hvw hlt, ihr hvr]
        rfl

theorem deleteStaged_notFound_of_notMem (t : Tree) (v : Int) (hv : v ∉ vals t) :
    deleteStaged t v = .notFound := by
  induction t with
  | nil => rfl
  | node nid w l r ihl ihr =>
      have hvw : ¬ v = w := fun h => hv (mem_vals_node.mpr (Or.inl h))
      have hvl : v ∉ vals l := fun h => hv (mem_vals_node.mpr (Or.inr (Or.inl h)))
      have hvr : v ∉ vals r := fun h => hv (mem_vals_node.mpr (Or.inr (Or.inr h)))
      by_cases hlt : v < w
      · rw [show deleteStaged (.node nid w l r) v =
          (match deleteStaged l v with
           | DelResult.notFound => DelResult.notFound
           | DelResult.deleted l2 fid => DelResult.deleted (.node nid w l2 r) fid
           | DelResult.fallback l2 => DelResult.fallback (.node nid w l2 r)) from by
            simp [deleteStaged, hvw, hlt]]
        rw [ihl hvl]
      · rw [show deleteStaged (.node nid w l r) v =
          (match deleteStaged r v with
           | DelResult.notFound => DelResult.notFound
           | DelResult.deleted r2 fid => DelResult.deleted (.node nid w l r2) fid
           | DelResult.fallback r2 => DelResult.fallback (.node nid w l r2)) from by
            simp [deleteStaged, hvw, hlt]]
        rw [ihr hvr]

theorem cmdDel_notFound_start (t : Tree) (v : Int) (hloc : locate t v = none) :
    step { initEngine with root := t } (some (.cmdDel v)) =
      { initEngine with
          root := t, delStage := .delTraversing, delFrames := 1,
          delTravLen := (visited t v).length, delTravIdx := 0,
          delPending := v } := by
  simp [step, applyCmd, startDeletion, insertUpdate, deleteUpdate, searchUpdate,
    finalizeTimerUpdate, hloc, initEngine]

theorem delNF_traversing_step (t : Tree) (v : Int) (len idx fr : Nat) :
    step { initEngine with
            root := t, delStage := .delTraversing, delFrames := fr,
            delTravLen := len, delTravIdx := idx, delPending := v } none =
    (if fr + 1 ≥ 12 then
      (if idx < len then
        { initEngine with
            root := t, delStage := .delTraversing, delFrames := 0,
            delTravLen := len, delTravIdx := idx + 1, delPending := v }
      else
        { initEngine with
            root := t, status := .delNotFound v, delPending := v })
    else
      { initEngine with
          root := t, delStage := .delTraversing, delFrames := fr + 1,
          delTravLen := len, delTravIdx := idx, delPending := v }) := by
  by_cases h1 : fr + 1 ≥ 12 <;> by_cases h2 : idx < len <;>
    simp [step, insertUpdate, deleteUpdate, searchUpdate, finalizeTimerUpdate,
      h1, h2, initEngine]

theorem delNF_finished_stable (t : Tree) (v : Int) (k : Nat) :
    iterate k { initEngine with
        root := t, status := .delNotFound v, delPending := v } =
      { initEngine with
          root := t, status := .delNotFound v, delPending := v } := by
  induction k with
  | zero => rfl
  | succ n ih =>
      rw [show iterate (n + 1) { initEngine with
          root := t, status := .delNotFound v, delPending := v } =
        iterate n (step { initEngine with
          root := t, status := .delNotFound v, delPending := v } none) from rfl]
      rw [show step { initEngine with
          root := t, status := .delNotFound v, delPending := v } none =
        { initEngine with
            root := t, status := .delNotFound v, delPending := v } from rfl]
      exact ih

theorem delNF_run (t : Tree) (v : Int) (len : Nat) :
    ∀ (k idx fr : Nat), idx ≤ len → fr < 12 →
      (iterate k { initEngine with
        root := t, delStage := .delTraversing, delFrames := fr,
        delTravLen := len, delTravIdx := idx, delPending := v }).root = t ∧
      (12 * (len - idx) + (12 - fr) ≤ k →
        iterate k { initEngine with
          root := t, delStage := .delTraversing, delFrames := fr,
          delTravLen := len, delTravIdx := idx, delPending := v } =
        { initEngine with
            root := t, status := .delNotFound v, delPending := v }) := by
  intro k
  induction k with
  | zero =>
      intro idx fr hidx hfr
      exact ⟨rfl, fun hm => absurd hm (by omega)⟩
  | succ n ih =>
      intro idx fr hidx hfr
      rw [show iterate (n + 1) { initEngine with
          root := t, delStage := .delTraversing, delFrames := fr,
          delTravLen := len, delTravIdx := idx, delPending := v } =
        iterate n (step { initEngine with
          root := t, delStage := .delTraversing, delFrames := fr,
          delTravLen := len, delTravIdx := idx, delPending := v } none) from rfl]
      rw [delNF_traversing_step t v len idx fr]
      by_cases h1 : fr + 1 ≥ 12
      · by_cases h2 : idx < len
        · rw [if_pos h1, if_pos h2]
          obtain ⟨ha, hb⟩ := ih (idx + 1) 0 (by omega) (by omega)
          exact ⟨ha, fun hm => hb (by omega)⟩
        · rw [if_pos h1, if_neg h2]
          rw [delNF_finished_stable]
          exact ⟨rfl, fun hm => rfl⟩
      · rw [if_neg h1]
        obtain ⟨ha, hb⟩ := ih idx (fr + 1) hidx (by omega)
        exact ⟨ha, fun hm => hb (by omega)⟩

/-- C5: deleting a value absent from the tree ends by reporting NotFound and
returning the delete process to Idle, with the tree completely unmutated at
every frame of the run — the engine's root (structure, every node id and every
value) is the same tree object throughout, so nothing is created, freed or
relinked. -/
theorem C5_delete_not_found (t : Tree) (v : Int) (k : Nat) (hv : v ∉ vals t) :
    deleteStaged t v = .notFound ∧
    (iterate k (step { initEngine with root := t } (some (.cmdDel v)))).root = t ∧
    (12 * (visited t v).length + 11 ≤ k →
      (iterate k (step { initEngine with root := t } (some (.cmdDel v)))).delStage =
        .delIdle ∧
      (iterate k (step { initEngine with root := t } (some (.cmdDel v)))).status =
        .delNotFound v) := by
  have hloc := locate_none_of_notMem t v hv
  rw [cmdDel_notFound_start t v hloc]
  obtain ⟨h1, h2⟩ := delNF_run t v (visited t v).length k 0 1 (Nat.zero_le _)
    (by omega)
  refine ⟨deleteStaged_notFound_of_notMem t v hv, h1, fun hk => ?_⟩
  rw [h2 (by omega)]
  exact ⟨rfl, rfl⟩

/-- Witness for C5: deleting 999 from the one-node tree holding 50, run for
23 frames (the full traversal of one visited node plus the finish frame). -/
theorem C5_delete_not_found_witness :
    (999 : Int) ∉ vals (.node 0 50 .nil .nil) ∧
    (deleteStaged (.node 0 50 .nil .nil) 999 = .notFound ∧
      (iterate 23 (step { initEngine with root := .node 0 50 .nil .nil }
        (some (.cmdDel 999)))).root = .node 0 50 .nil .nil ∧
      (12 * (visited (.node 0 50 .nil .nil) 999).length + 11 ≤ 23 →
        (iterate 23 (step { initEngine with root := .node 0 50 .nil .nil }
          (some (.cmdDel 999)))).delStage = .delIdle ∧
        (iterate 23 (step { initEngine with root := .node 0 50 .nil .nil }
          (some (.cmdDel 999)))).status = .delNotFound 999)) :=
  ⟨by decide, C5_delete_not_found (.node 0 50 .nil .nil) 999 23 (by decide)⟩

/-! ### The single commit frame of a delete -/

theorem commitDelete_cases (nid : Nat) (w : Int) (l r : Tree) (s2 : Tree) (fid : Nat)
    (h : commitDelete nid w l r = some (s2, fid)) :
    (l = .nil ∧ r = .nil ∧ fid = nid ∧ s2 = .nil) ∨
    (l = .nil ∧ r ≠ .nil ∧ fid = nid ∧ s2 = r) ∨
    (l ≠ .nil ∧ r = .nil ∧ fid = nid ∧ s2 = l) ∨
    (l ≠ .nil ∧ r ≠ .nil) := by
  cases l with
  | nil =>
      cases r with
      | nil =>
          simp only [commitDelete, Option.some.injEq, Prod.mk.injEq] at h
          exact Or.inl ⟨rfl, rfl, h.2.symm, h.1.symm⟩
      | node a b c d =>
          simp only [commitDelete, Option.some.injEq, Prod.mk.injEq] at h
          exact Or.inr (Or.inl ⟨rfl, by simp, h.2.symm, h.1.symm⟩)
  | node a b c d =>
      cases r with
      | nil =>
          simp only [commitDelete, Option.some.injEq, Prod.mk.injEq] at h
          exact Or.inr (Or.inr (Or.inl ⟨by simp, rfl, h.2.symm, h.1.symm⟩))
      | node a2 b2 c2 d2 => exact Or.inr (Or.inr (Or.inr ⟨by simp, by simp⟩))

theorem deleteUpdate_root_pre (e : Engine)
    (h : e.delStage = .delTraversing ∨ e.delStage = .delHighlightTarget ∨
      e.delStage = .delHighlightSuccessor ∨ e.delStage = .delFinalize ∨
      e.delStage = .delIdle) :
    (deleteUpdate e).root = e.root := by
  rcases h with h | h | h | h | h <;> simp only [deleteUpdate, h]
  · split_ifs <;> rfl
  · split_ifs with h1
    · unfold deleteDecide
      split <;> rfl
    · rfl
  · split_ifs <;> rfl
  · split_ifs <;> rfl

theorem deleteUpdate_root_move_lt (e : Engine)
    (h : e.delStage = .delMoveSuccessor ∨ e.delStage = .delMoveChildUp)
    (hp : e.animProgress + 1/24 < 1) :
    (deleteUpdate e).root = e.root := by
  have hmin : ¬ (min (e.animProgress + 1/24) 1 ≥ 1) :=
    not_le.mpr (lt_of_le_of_lt (min_le_left _ _) hp)
  rcases h with h | h <;> simp only [deleteUpdate, h, if_neg hmin] <;> rfl

theorem deleteUpdate_root_shrink_lt (e : Engine) (h : e.delStage = .delShrinkRemove)
    (hp : e.animProgress + 1/16 < 1) :
    (deleteUpdate e).root = e.root := by
  simp only [deleteUpdate, h, if_neg (not_le.mpr hp)]

theorem step_root_precommit (e : Engine) (hins : e.insStage = .insIdle)
    (hdel : e.delStage = .delTraversing ∨ e.delStage = .delHighlightTarget ∨
      e.delStage = .delHighlightSuccessor ∨ e.delStage = .delFinalize ∨
      e.delStage = .delIdle) :
    (step e none).root = e.root := by
  show (finalizeTimerUpdate (searchUpdate (deleteUpdate (insertUpdate e)))).root =
    e.root
  rw [finalizeTimerUpdate_root, searchUpdate_root, insertUpdate_of_insIdle e hins,
    deleteUpdate_root_pre e hdel]

theorem step_root_move_lt (e : Engine) (hins : e.insStage = .insIdle)
    (hdel : e.delStage = .delMoveSuccessor ∨ e.delStage = .delMoveChildUp)
    (hp : e.animProgress + 1/24 < 1) :
    (step e none).root = e.root := by
  show (finalizeTimerUpdate (searchUpdate (deleteUpdate (insertUpdate e)))).root =
    e.root
  rw [finalizeTimerUpdate_root, searchUpdate_root, insertUpdate_of_insIdle e hins,
    deleteUpdate_root_move_lt e hdel hp]

theorem step_root_shrink_lt (e : Engine) (hins : e.insStage = .insIdle)
    (hdel : e.delStage = .delShrinkRemove) (hp : e.animProgress + 1/16 < 1) :
    (step e none).root = e.root := by
  show (finalizeTimerUpdate (searchUpdate (deleteUpdate (insertUpdate e)))).root =
    e.root
  rw [finalizeTimerUpdate_root, searchUpdate_root, insertUpdate_of_insIdle e hins,
    deleteUpdate_root_shrink_lt e hdel hp]

theorem deleteUpdate_commit_shrink (e : Engine) (s : Tree)
    (hstage : e.delStage = .delShrinkRemove)
    (hrep : replaceAt e.root e.delTargetPath .nil = some s)
    (hprog : 1 ≤ e.animProgress + 1/16) :
    (deleteUpdate e).root = s ∧ (deleteUpdate e).delStage = .delFinalize := by
  have hge : e.animProgress + 1/16 ≥ 1 := hprog
  simp only [deleteUpdate, hstage, if_pos hge, commitShrink, hrep, Option.getD_some]
  exact ⟨trivial, trivial⟩

theorem deleteUpdate_commit_childUp (e : Engine) (nid : Nat) (l r s : Tree)
    (hstage : e.delStage = .delMoveChildUp)
    (hsub : subtreeAt e.root e.delTargetPath = some (.node nid e.delPending l r))
    (hone : (l = .nil ∧ replaceAt e.root e.delTargetPath r = some s) ∨
      (l ≠ .nil ∧ replaceAt e.root e.delTargetPath l = some s))
    (hprog : 1 ≤ e.animProgress + 1/24) :
    (deleteUpdate e).root = s ∧ (deleteUpdate e).delStage = .delFinalize := by
  have hge : min (e.animProgress + 1/24) 1 ≥ 1 := le_min hprog (le_refl 1)
  simp only [deleteUpdate, hstage, if_pos hge, commitMoveChildUp, hsub]
  rcases hone with ⟨hl, hrep⟩ | ⟨hl, hrep⟩
  · subst hl
    simp only [hrep, Option.getD_some]
    exact ⟨trivial, trivial⟩
  · cases l with
    | nil => exact absurd rfl hl
    | node a b c d =>
        simp only [hrep, Option.getD_some]
        exact ⟨trivial, trivial⟩

theorem deleteUpdate_commit_moveSucc (e : Engine) (nid sid : Nat) (sv : Int)
    (l r sr t1 s : Tree)
    (hstage : e.delStage = .delMoveSuccessor)
    (hsub : subtreeAt e.root e.delTargetPath = some (.node nid e.delPending l r))
    (hsucc : subtreeAt r e.succRelPath = some (.node sid sv .nil sr))
    (hset : setValAt e.root e.delTargetPath sv = some t1)
    (hrep : replaceAt t1 (e.delTargetPath ++ Dir.R :: e.succRelPath) sr = some s) :
    1 ≤ e.animProgress + 1/24 →
    (deleteUpdate e).root = s ∧ (deleteUpdate e).delStage = .delFinalize := by
  intro hprog
  have hge : min (e.animProgress + 1/24) 1 ≥ 1 := le_min hprog (le_refl 1)
  simp only [deleteUpdate, hstage, if_pos hge, commitMoveSuccessor, hsub, hsucc,
    hset, Option.getD_some, hrep]
  exact ⟨trivial, trivial⟩

theorem step_commit_root (e : Engine) (s : Tree) (hins : e.insStage = .insIdle)
    (h : (deleteUpdate e).root = s ∧ (deleteUpdate e).delStage = .delFinalize) :
    (step e none).root = s ∧ (step e none).delStage = .delFinalize := by
  constructor
  · show (finalizeTimerUpdate (searchUpdate (deleteUpdate (insertUpdate e)))).root = s
    rw [finalizeTimerUpdate_root, searchUpdate_root, insertUpdate_of_insIdle e hins]
    exact h.1
  · show (finalizeTimerUpdate (searchUpdate (deleteUpdate (insertUpdate e)))).delStage
      = .delFinalize
    rw [finalizeTimerUpdate_delStage, searchUpdate_delStage,
      insertUpdate_of_insIdle e hins]
    exact h.2

/-! ### Validity of the captured delete context in every reachable state -/

theorem delContextWF_of_delIdle (e : Engine) (h : e.delStage = .delIdle) :
    delContextWF e := by
  unfold delContextWF
  rw [h]
  trivial

theorem delContextWF_of_delFinalize (e : Engine) (h : e.delStage = .delFinalize) :
    delContextWF e := by
  unfold delContextWF
  rw [h]
  trivial

theorem insertUpdate_delData (e : Engine) :
    (insertUpdate e).delPending = e.delPending ∧
    (insertUpdate e).delFound = e.delFound ∧
    (insertUpdate e).delTargetPath = e.delTargetPath ∧
    (insertUpdate e).succRelPath = e.succRelPath := by
  rcases h : e.insStage <;> simp only [insertUpdate, h] <;> (try split_ifs) <;> simp

theorem searchUpdate_delData (e : Engine) :
    (searchUpdate e).delPending = e.delPending ∧
    (searchUpdate e).delFound = e.delFound ∧
    (searchUpdate e).delTargetPath = e.delTargetPath ∧
    (searchUpdate e).succRelPath = e.succRelPath := by
  rcases h : e.searchStage <;> simp only [searchUpdate, h] <;> (try split_ifs) <;> simp

theorem finalizeTimerUpdate_delData (e : Engine) :
    (finalizeTimerUpdate e).delPending = e.delPending ∧
    (finalizeTimerUpdate e).delFound = e.delFound ∧
    (finalizeTimerUpdate e).delTargetPath = e.delTargetPath ∧
    (finalizeTimerUpdate e).succRelPath = e.succRelPath := by
  unfold finalizeTimerUpdate
  split_ifs <;> exact ⟨rfl, rfl, rfl, rfl⟩

theorem commitMoveSuccessor_delStage (e : Engine) :
    (commitMoveSuccessor e).delStage = .delFinalize := by
  unfold commitMoveSuccessor
  split
  · split <;> rfl
  · rfl

theorem commitMoveChildUp_delStage (e : Engine) :
    (commitMoveChildUp e).delStage = .delFinalize := by
  unfold commitMoveChildUp
  split <;> rfl

theorem applyCmd_WF (e : Engine) (c : Cmd) (h : delContextWF e) :
    delContextWF (applyCmd e c) := by
  cases c with
  | cmdIns v =>
      by_cases hg : e.delStage = .delIdle ∧ e.insStage = .insIdle
      · rw [show applyCmd e (.cmdIns v) = startInsertion e v from by
          simp [applyCmd, hg]]
        exact delContextWF_of_delIdle _ (by simpa [startInsertion] using hg.1)
      · rw [show applyCmd e (.cmdIns v) = { e with status := .blocked } from by
          simp [applyCmd, hg]]
        exact h
  | cmdDel v =>
      by_cases hg : e.delStage = .delIdle ∧ e.searchStage = .sIdle ∧
          e.insStage = .insIdle
      · rw [show applyCmd e (.cmdDel v) = startDeletion e v from by
          simp [applyCmd, hg]]
        exact ⟨rfl, rfl⟩
      · rw [show applyCmd e (.cmdDel v) = { e with status := .blocked } from by
          simp [applyCmd, hg]]
        exact h
  | cmdSearch v =>
      by_cases hg : e.delStage = .delIdle ∧ e.insStage = .insIdle ∧
          e.searchStage = .sIdle
      · rw [show applyCmd e (.cmdSearch v) = startSearch e v from by
          simp [applyCmd, hg]]
        exact delContextWF_of_delIdle _ (by simpa [startSearch] using hg.1)
      · rw [show applyCmd e (.cmdSearch v) = { e with status := .blocked } from by
          simp [applyCmd, hg]]
        exact h

theorem insertUpdate_WF (e : Engine)
    (hm : e.insStage = .insIdle ∨ e.delStage = .delIdle)
    (h : delContextWF e) : delContextWF (insertUpdate e) := by
  rcases hm with hm | hm
  · rw [insertUpdate_of_insIdle e hm]
    exact h
  · refine delContextWF_of_delIdle _ ?_
    rw [insertUpdate_delStage]
    exact hm

theorem deleteDecide_WF (e : Engine) (nid : Nat) (l r : Tree)
    (hloc : locate e.root e.delPending = some e.delTargetPath)
    (hsub : subtreeAt e.root e.delTargetPath = some (.node nid e.delPending l r)) :
    delContextWF (deleteDecide e) := by
  unfold deleteDecide
  rw [hsub]
  cases l with
  | nil =>
      cases r with
      | nil => exact ⟨hloc, nid, hsub⟩
      | node a b c d =>
          exact ⟨hloc, nid, .nil, .node a b c d, hsub, Or.inl ⟨rfl, by simp⟩⟩
  | node a b c d =>
      cases r with
      | nil =>
          exact ⟨hloc, nid, .node a b c d, .nil, hsub, Or.inr ⟨by simp, rfl⟩⟩
      | node a2 b2 c2 d2 =>
          exact ⟨hloc, nid, .node a b c d, .node a2 b2 c2 d2, hsub, by simp,
            by simp, rfl⟩

theorem deleteUpdate_WF (e : Engine) (h : delContextWF e) :
    delContextWF (deleteUpdate e) := by
  rcases hs : e.delStage
  case delIdle =>
      rw [deleteUpdate_of_delIdle e hs]
      exact h
  case delTraversing =>
      unfold delContextWF at h
      rw [hs] at h
      obtain ⟨hfound, hpath⟩ := h
      simp only [deleteUpdate, hs]
      split_ifs with h1 h2 h3
      · exact ⟨hfound, hpath⟩
      · rcases hl : locate e.root e.delPending with _ | p
        · rw [hl] at hfound
          rw [hfound] at h3
          simp at h3
        · rw [hl] at hpath
          simp only [Option.getD_some] at hpath
          show locate e.root e.delPending = some e.delTargetPath
          rw [hl, hpath]
      · exact delContextWF_of_delIdle _ rfl
      · exact ⟨hfound, hpath⟩
  case delHighlightTarget =>
      unfold delContextWF at h
      rw [hs] at h
      obtain ⟨nid, l, r, hsub⟩ := locate_subtree _ _ _ h
      simp only [deleteUpdate, hs]
      split_ifs with h1
      · exact deleteDecide_WF _ nid l r h hsub
      · exact h
  case delHighlightSuccessor =>
      unfold delContextWF at h
      rw [hs] at h
      obtain ⟨hloc, nid, l, r, hsub, hl, hr, hrel⟩ := h
      simp only [deleteUpdate, hs]
      split_ifs with h1
      · exact ⟨hloc, nid, l, r, hsub, hl, hr, hrel⟩
      · exact ⟨hloc, nid, l, r, hsub, hl, hr, hrel⟩
  case delMoveSuccessor =>
      unfold delContextWF at h
      rw [hs] at h
      obtain ⟨hloc, nid, l, r, hsub, hl, hr, hrel⟩ := h
      simp only [deleteUpdate, hs]
      split_ifs with h1
      · exact delContextWF_of_delFinalize _ (commitMoveSuccessor_delStage _)
      · exact ⟨hloc, nid, l, r, hsub, hl, hr, hrel⟩
  case delMoveChildUp =>
      unfold delContextWF at h
      rw [hs] at h
      obtain ⟨hloc, nid, l, r, hsub, hone⟩ := h
      simp only [deleteUpdate, hs]
      split_ifs with h1
      · exact delContextWF_of_delFinalize _ (commitMoveChildUp_delStage _)
      · exact ⟨hloc, nid, l, r, hsub, hone⟩
  case delShrinkRemove =>
      unfold delContextWF at h
      rw [hs] at h
      obtain ⟨hloc, nid, hsub⟩ := h
      simp only [deleteUpdate, hs]
      split_ifs with h1
      · exact delContextWF_of_delFinalize _ rfl
      · exact ⟨hloc, nid, hsub⟩
  case delFinalize =>
      simp only [deleteUpdate, hs]
      split_ifs with h1
      · exact delContextWF_of_delIdle _ rfl
      · exact delContextWF_of_delFinalize _ rfl

theorem searchUpdate_WF (e : Engine) (h : delContextWF e) :
    delContextWF (searchUpdate e) := by
  obtain ⟨h1, h2, h3, h4⟩ := searchUpdate_delData e
  unfold delContextWF at h ⊢
  rw [searchUpdate_root, searchUpdate_delStage, h1, h2, h3, h4]
  exact h

theorem finalizeTimerUpdate_WF (e : Engine) (h : delContextWF e) :
    delContextWF (finalizeTimerUpdate e) := by
  obtain ⟨h1, h2, h3, h4⟩ := finalizeTimerUpdate_delData e
  unfold delContextWF at h ⊢
  rw [finalizeTimerUpdate_root, finalizeTimerUpdate_delStage, h1, h2, h3, h4]
  exact h

theorem step_WF (e : Engine) (c : Option Cmd)
    (hm : e.insStage = .insIdle ∨ e.delStage = .delIdle)
    (h : delContextWF e) : delContextWF (step e c) := by
  cases c with
  | none =>
      exact finalizeTimerUpdate_WF _ (searchUpdate_WF _ (deleteUpdate_WF _
        (insertUpdate_WF e hm h)))
  | some cmd =>
      exact finalizeTimerUpdate_WF _ (searchUpdate_WF _ (deleteUpdate_WF _
        (insertUpdate_WF (applyCmd e cmd) (applyCmd_mutex e cmd hm)
          (applyCmd_WF e cmd h))))

theorem reachable_mutex (e : Engine) (he : Reachable e) :
    e.insStage = .insIdle ∨ e.delStage = .delIdle := by
  induction he with
  | init => exact Or.inl rfl
  | next e2 c h2 ih => exact step_mutex e2 c ih

theorem reachable_WF (e : Engine) (he : Reachable e) : delContextWF e := by
  induction he with
  | init => exact delContextWF_of_delIdle initEngine rfl
  | next e2 c h2 ih => exact step_WF e2 c (reachable_mutex e2 h2) ih

/-- C4: for every Delete that finds its target, exactly one node is freed (the
id multiset loses exactly the freed node's id) and exactly one structural edit
— a single child-slot or root replacement, preceded in the two-child branch by
the single value copy — produces the committed tree; and on the per-frame
engine, the tree is untouched on every frame of the delete that has not yet
reached the branch commit, and mutates exactly on the frame where the active
branch's progress reaches 1.0, producing the staged delete's tree and moving
to the finalize stage — in all three branches; the captured delete context the
commit relies on is valid in every reachable engine state. -/
theorem C4_single_commit :
    (∀ (t : Tree) (v : Int) (s : Tree) (fid : Nat),
      deleteStaged t v = .deleted s fid → ids t = fid ::ₘ ids s) ∧
    (∀ (t : Tree) (v : Int) (s : Tree) (fid : Nat),
      deleteStaged t v = .deleted s fid →
      ∃ p nid l r, locate t v = some p ∧ subtreeAt t p = some (.node nid v l r) ∧
        ((l = .nil ∧ r = .nil ∧ fid = nid ∧ replaceAt t p .nil = some s) ∨
         (l = .nil ∧ r ≠ .nil ∧ fid = nid ∧ replaceAt t p r = some s) ∨
         (l ≠ .nil ∧ r = .nil ∧ fid = nid ∧ replaceAt t p l = some s) ∨
         (l ≠ .nil ∧ r ≠ .nil ∧ ∃ sv sr t1,
           subtreeAt r (leftmostPath r) = some (.node fid sv .nil sr) ∧
           setValAt t p sv = some t1 ∧
           replaceAt t1 (p ++ Dir.R :: leftmostPath r) sr = some s))) ∧
    (∀ e : Engine, e.insStage = .insIdle →
      (e.delStage = .delTraversing ∨ e.delStage = .delHighlightTarget ∨
          e.delStage = .delHighlightSuccessor ∨ e.delStage = .delFinalize ∨
          e.delStage = .delIdle →
        (step e none).root = e.root) ∧
      ((e.delStage = .delMoveSuccessor ∨ e.delStage = .delMoveChildUp) →
        e.animProgress + 1/24 < 1 → (step e none).root = e.root) ∧
      (e.delStage = .delShrinkRemove → e.animProgress + 1/16 < 1 →
        (step e none).root = e.root)) ∧
    (∀ (e : Engine) (nid : Nat) (l r : Tree), e.insStage = .insIdle →
      locate e.root e.delPending = some e.delTargetPath →
      subtreeAt e.root e.delTargetPath = some (.node nid e.delPending l r) →
      ((e.delStage = .delShrinkRemove → l = .nil → r = .nil →
        1 ≤ e.animProgress + 1/16 →
        deleteStaged e.root e.delPending = .deleted (step e none).root nid ∧
          (step e none).delStage = .delFinalize) ∧
       (e.delStage = .delMoveChildUp →
        (l = .nil ∧ r ≠ .nil) ∨ (l ≠ .nil ∧ r = .nil) →
        1 ≤ e.animProgress + 1/24 →
        deleteStaged e.root e.delPending = .deleted (step e none).root nid ∧
          (step e none).delStage = .delFinalize) ∧
       (e.delStage = .delMoveSuccessor → l ≠ .nil → r ≠ .nil →
        e.succRelPath = leftmostPath r →
        1 ≤ e.animProgress + 1/24 →
        ∃ fid, deleteStaged e.root e.delPending = .deleted (step e none).root fid ∧
          (step e none).delStage = .delFinalize))) ∧
    (∀ e : Engine, Reachable e → delContextWF e) := by
  refine ⟨?_, ?_, ?_, ?_, ?_⟩
  · intro t v s fid h
    exact (deleteStaged_deleted t v s fid h).2.1
  · intro t v s fid h
    obtain ⟨p, nid, l, r, s2, hp, hsub, hc, hrep⟩ := deleteStaged_as_replace t v s fid h
    refine ⟨p, nid, l, r, hp, hsub, ?_⟩
    rcases commitDelete_cases nid v l r _ fid hc with
      ⟨hl, hr, hfid, hs2⟩ | ⟨hl, hr, hfid, hs2⟩ | ⟨hl, hr, hfid, hs2⟩ | ⟨hl, hr⟩
    · subst hs2
      exact Or.inl ⟨hl, hr, hfid, hrep⟩
    · subst hs2
      exact Or.inr (Or.inl ⟨hl, hr, hfid, hrep⟩)
    · subst hs2
      exact Or.inr (Or.inr (Or.inl ⟨hl, hr, hfid, hrep⟩))
    · obtain ⟨sid, sv, sr, r2, t1, s2, hall, hsubr, hcommit, hset, hsubt1, hrep1,
        hrep2, hsubs⟩ := twoChild_commit_path t v p nid l r hsub hl hr
      rw [hcommit] at hc
      simp only [Option.some.injEq, Prod.mk.injEq] at hc
      obtain ⟨hs2, hfid⟩ := hc
      subst hfid
      rw [← hs2] at hrep
      rw [hrep2] at hrep
      have hss : s2 = s := Option.some.inj hrep
      subst hss
      exact Or.inr (Or.inr (Or.inr ⟨hl, hr, sv, sr, t1, hsubr, hset, hrep1⟩))
  · intro e hins
    exact ⟨fun hd => step_root_precommit e hins hd,
      fun hd hp => step_root_move_lt e hins hd hp,
      fun hd hp => step_root_shrink_lt e hins hd hp⟩
  · intro e nid l r hins hloc hsub
    refine ⟨?_, ?_, ?_⟩
    · intro hstage hl hr hprog
      subst hl
      subst hr
      have hc : commitDelete nid e.delPending .nil .nil = some (.nil, nid) := rfl
      obtain ⟨s, hrep, hdel⟩ := locate_deleteStaged e.root e.delPending
        e.delTargetPath nid .nil .nil .nil nid hloc hsub hc
      obtain ⟨h1, h2⟩ := step_commit_root e s hins
        (deleteUpdate_commit_shrink e s hstage hrep hprog)
      rw [h1, hdel]
      exact ⟨rfl, h2⟩
    · intro hstage hone hprog
      rcases hone with ⟨hl, hr⟩ | ⟨hl, hr⟩
      · subst hl
        cases r with
        | nil => exact absurd rfl hr
        | node a b c d =>
            have hc : commitDelete nid e.delPending .nil (.node a b c d) =
              some (.node a b c d, nid) := rfl
            obtain ⟨s, hrep, hdel⟩ := locate_deleteStaged e.root e.delPending
              e.delTargetPath nid .nil (.node a b c d) (.node a b c d) nid
              hloc hsub hc
            obtain ⟨h1, h2⟩ := step_commit_root e s hins
              (deleteUpdate_commit_childUp e nid .nil (.node a b c d) s hstage hsub
                (Or.inl ⟨rfl, hrep⟩) hprog)
            rw [h1, hdel]
            exact ⟨rfl, h2⟩
      · subst hr
        cases l with
        | nil => exact absurd rfl hl
        | node a b c d =>
            have hc : commitDelete nid e.delPending (.node a b c d) .nil =
              some (.node a b c d, nid) := rfl
            obtain ⟨s, hrep, hdel⟩ := locate_deleteStaged e.root e.delPending
              e.delTargetPath nid (.node a b c d) .nil (.node a b c d) nid
              hloc hsub hc
            obtain ⟨h1, h2⟩ := step_commit_root e s hins
              (deleteUpdate_commit_childUp e nid (.node a b c d) .nil s hstage hsub
                (Or.inr ⟨by simp, hrep⟩) hprog)
            rw [h1, hdel]
            exact ⟨rfl, h2⟩
    · intro hstage hl hr hsrel hprog
      obtain ⟨sid, sv, sr, r2, t1, s, hall, hsubr, hcommit, hset, hsubt1, hrep1,
        hrep2, hsubs⟩ := twoChild_commit_path e.root e.delPending e.delTargetPath
          nid l r hsub hl hr
      have hsucc : subtreeAt r e.succRelPath = some (.node sid sv .nil sr) := by
        rw [hsrel]
        exact hsubr
      have hrep1b : replaceAt t1 (e.delTargetPath ++ Dir.R :: e.succRelPath) sr =
          some s := by
        rw [hsrel]
        exact hrep1
      obtain ⟨s2, hrep3, hdel⟩ := locate_deleteStaged e.root e.delPending
        e.delTargetPath nid l r (.node nid sv l r2) sid hloc hsub hcommit
      rw [hrep2] at hrep3
      have hss : s = s2 := Option.some.inj hrep3
      subst hss
      obtain ⟨h1, h2⟩ := step_commit_root e s hins
        (deleteUpdate_commit_moveSucc e nid sid sv l r sr t1 s hstage hsub hsucc
          hset hrep1b hprog)
      rw [h1, hdel]
      exact ⟨sid, rfl, h2⟩
  · exact reachable_WF

/-- Witness for C4: the one-node leaf delete at the engine's shrink commit
frame, plus the freed-id and single-edit parts on that same one-node tree. -/
theorem C4_single_commit_witness :
    (deleteStaged (.node 0 5 .nil .nil) 5 = .deleted .nil 0 ∧
      ids (.node 0 5 .nil .nil) = 0 ::ₘ ids .nil) ∧
    (∃ p nid l r, locate (.node 0 5 .nil .nil) 5 = some p ∧
      subtreeAt (.node 0 5 .nil .nil) p = some (.node nid 5 l r) ∧
      ((l = .nil ∧ r = .nil ∧ 0 = nid ∧
          replaceAt (.node 0 5 .nil .nil) p .nil = some .nil) ∨
       (l = .nil ∧ r ≠ .nil ∧ 0 = nid ∧
          replaceAt (.node 0 5 .nil .nil) p r = some .nil) ∨
       (l ≠ .nil ∧ r = .nil ∧ 0 = nid ∧
          replaceAt (.node 0 5 .nil .nil) p l = some .nil) ∨
       (l ≠ .nil ∧ r ≠ .nil ∧ ∃ sv sr t1,
          subtreeAt r (leftmostPath r) = some (.node 0 sv .nil sr) ∧
          setValAt (.node 0 5 .nil .nil) p sv = some t1 ∧
          replaceAt t1 (p ++ Dir.R :: leftmostPath r) sr = some .nil))) ∧
    ({ initEngine with
        root := .node 0 5 .nil .nil, delPending := 5,
        delStage := .delShrinkRemove,
        animProgress := 15/16 }.insStage = .insIdle ∧
      locate (.node 0 5 .nil .nil) 5 = some [] ∧
      subtreeAt (.node 0 5 .nil .nil) [] = some (.node 0 5 .nil .nil) ∧
      (1 : ℚ) ≤ 15/16 + 1/16) ∧
    (deleteStaged (.node 0 5 .nil .nil) 5 =
      .deleted (step { initEngine with
          root := .node 0 5 .nil .nil, delPending := 5,
          delStage := .delShrinkRemove, animProgress := 15/16 } none).root 0 ∧
      (step { initEngine with
          root := .node 0 5 .nil .nil, delPending := 5,
          delStage := .delShrinkRemove, animProgress := 15/16 } none).delStage =
        .delFinalize) ∧
    (Reachable initEngine ∧ delContextWF initEngine) :=
  ⟨⟨by decide, C4_single_commit.1 (.node 0 5 .nil .nil) 5 .nil 0 (by decide)⟩,
    C4_single_commit.2.1 (.node 0 5 .nil .nil) 5 .nil 0 (by decide),
    ⟨rfl, by decide, by decide, by norm_num⟩,
    (C4_single_commit.2.2.2.1 { initEngine with
        root := .node 0 5 .nil .nil, delPending := 5,
        delStage := .delShrinkRemove, animProgress := 15/16 }
      0 .nil .nil rfl (by decide) (by decide)).1 rfl rfl rfl (by norm_num),
    ⟨Reachable.init, C4_single_commit.2.2.2.2 initEngine Reachable.init⟩⟩

end BSTVis
